import Mathlib

/-!
A sorted integer set kept in a singly linked chain of nodes (`intset.go`)

The Go program keeps a strictly ascending chain of heap nodes behind a sentinel
head node.  The embedding below keeps the heap explicit: a `Heap` is the list of
all node objects ever allocated, a pointer `*Node` is `Option Nat` (`none` is
`nil`, `some p` is the address `p`, an index into the heap), and every method is
a function that threads the heap through.  Loops carry a fuel argument: the
function returns `none` when the fuel runs out, when a `nil` pointer is
dereferenced, or when a mutex operation can never complete in a single thread.

Values are Go `int`s; they are only compared, so they are kept as unbounded
integers.  The counter `len` is an `int32` and `atomic.AddInt32` wraps, which
`wrapInt32` reproduces.  Calls run one after another: the development is about
the set at rest, between calls.
-/

namespace Clist

/-! ## Data model -/

/-- Flag value of a node that is not logically deleted (`nodeNotDeleted`). -/
def nodeNotDeleted : Nat := 0

/-- Flag value of a logically deleted node (`nodeDeleted`). -/
def nodeDeleted : Nat := 1

/-- The `Node` struct: payload, deletion flag (a `uint32`), successor pointer and
the state of the per-node mutex (`true` when held). -/
structure Node where
  value : Int
  marked : Nat
  next : Option Nat
  mu : Bool
deriving DecidableEq, Repr

/-- All node objects allocated so far; the address of a node is its index. -/
abbrev Heap := List Node

/-- The `IntList` struct together with the heap its pointers refer to: `head` is
the `*Node` field, `len` the `int32` counter. -/
structure IntList where
  mem : Heap
  head : Option Nat
  len : Int
deriving DecidableEq, Repr

/-- Two's complement wrap-around of a 32 bit signed integer, the arithmetic of
`atomic.AddInt32`. -/
def wrapInt32 (x : Int) : Int := (x + 2147483648) % 4294967296 - 2147483648

/-! ## Node primitives -/

/-- The function `newNode`: allocates a node with the given value and successor,
flag and mutex zero-initialised, and returns the new heap and the address. -/
def newNode (mem : Heap) (value : Int) (next : Option Nat) : Heap × Nat :=
  (mem ++ [{ value := value, marked := 0, next := next, mu := false }], mem.length)

/-- The method `setDeleted`: stores `nodeDeleted` in the flag of node `n`. -/
def setDeleted (mem : Heap) (n : Nat) : Option Heap :=
  match mem[n]? with
  | none => none
  | some nd => some (mem.set n { nd with marked := nodeDeleted })

/-- The method `isDeleted`: whether the flag of node `n` equals `nodeDeleted`. -/
def isDeleted (mem : Heap) (n : Nat) : Option Bool :=
  match mem[n]? with
  | none => none
  | some nd => some (nd.marked == nodeDeleted)

/-- The method `storeNext`: stores `node` in the successor field of node `n`. -/
def storeNext (mem : Heap) (n : Nat) (node : Option Nat) : Option Heap :=
  match mem[n]? with
  | none => none
  | some nd => some (mem.set n { nd with next := node })

/-- The method `loadNext`: reads the successor field of node `n`. -/
def loadNext (mem : Heap) (n : Nat) : Option (Option Nat) :=
  match mem[n]? with
  | none => none
  | some nd => some nd.next

/-- The call `n.mu.Lock()` in a single thread: succeeds on a free mutex and never
returns on a held one. -/
def lock (mem : Heap) (n : Nat) : Option Heap :=
  match mem[n]? with
  | none => none
  | some nd => if nd.mu then none else some (mem.set n { nd with mu := true })

/-- The call `n.mu.Unlock()`: releases a held mutex; unlocking a free mutex is a
fatal runtime error. -/
def unlock (mem : Heap) (n : Nat) : Option Heap :=
  match mem[n]? with
  | none => none
  | some nd => if nd.mu then some (mem.set n { nd with mu := false }) else none

/-! ## Operations -/

/-- The function `NewInt`: a fresh sentinel node with value `-1` and no
successor, and a zero counter. -/
def NewInt : IntList :=
  { mem := (newNode [] (-1) none).1, head := some (newNode [] (-1) none).2, len := 0 }

/-- The loop of `findPositions`: advance `(a, b)` while `b` is a node whose value
is below `value`. -/
def findLoop (mem : Heap) (value : Int) : Nat → Nat → Option Nat → Option (Nat × Option Nat)
  | 0, _, _ => none
  | _ + 1, a, none => some (a, none)
  | fuel + 1, a, some b =>
    match mem[b]? with
    | none => none
    | some nb =>
      if nb.value < value then
        match loadNext mem b with
        | none => none
        | some b2 => findLoop mem value fuel b b2
      else some (a, some b)

/-- The method `findPositions`: start at the head and its successor and run the
loop. -/
def findPositions (fuel : Nat) (i : IntList) (value : Int) : Option (Nat × Option Nat) :=
  match i.head with
  | none => none
  | some a =>
    match loadNext i.mem a with
    | none => none
    | some b => findLoop i.mem value fuel a b

/-- The loop of `Contains`, started at the pointer `c`. -/
def containsLoop (mem : Heap) (value : Int) : Nat → Option Nat → Option Bool
  | 0, _ => none
  | _ + 1, none => some false
  | fuel + 1, some c =>
    match mem[c]? with
    | none => none
    | some nc =>
      if value < nc.value then some false
      else if value ≠ nc.value then
        match loadNext mem c with
        | none => none
        | some c2 => containsLoop mem value fuel c2
      else
        match isDeleted mem c with
        | none => none
        | some d => some (!d)

/-- The method `Contains`. -/
def Contains (fuel : Nat) (i : IntList) (value : Int) : Option Bool :=
  match i.head with
  | none => none
  | some h =>
    match loadNext i.mem h with
    | none => none
    | some c => containsLoop i.mem value fuel c

/-- The test `b != nil && b.value == value` of `Insert`. -/
def valueIs (mem : Heap) (b : Option Nat) (value : Int) : Option Bool :=
  match b with
  | none => some false
  | some p =>
    match mem[p]? with
    | none => none
    | some nb => some (nb.value == value)

/-- The test `a.isDeleted() || (b != nil && b.isDeleted())` of `Insert`, with the
short-circuit evaluation of Go. -/
def eitherDeleted (mem : Heap) (a : Nat) (b : Option Nat) : Option Bool :=
  match isDeleted mem a with
  | none => none
  | some true => some true
  | some false =>
    match b with
    | none => some false
    | some p => isDeleted mem p

/-- The retry loop of `Insert` followed by the commit: `tfuel` bounds each
positioning walk, the structural argument bounds the number of attempts. -/
def insertLoop (tfuel : Nat) (value : Int) : Nat → IntList → Option (Bool × IntList)
  | 0, _ => none
  | fuel + 1, i =>
    match findPositions tfuel i value with
    | none => none
    | some (a, b) =>
      match valueIs i.mem b value with
      | none => none
      | some true => some (false, i)
      | some false =>
        match lock i.mem a with
        | none => none
        | some m1 =>
          match m1[a]? with
          | none => none
          | some na =>
            if na.next ≠ b then
              match unlock m1 a with
              | none => none
              | some m2 => insertLoop tfuel value fuel { i with mem := m2 }
            else
              match eitherDeleted m1 a b with
              | none => none
              | some true =>
                match unlock m1 a with
                | none => none
                | some m2 => insertLoop tfuel value fuel { i with mem := m2 }
              | some false =>
                let (m2, x) := newNode m1 value b
                match storeNext m2 a (some x) with
                | none => none
                | some m3 =>
                  match unlock m3 a with
                  | none => none
                  | some m4 => some (true, { i with mem := m4, len := wrapInt32 (i.len + 1) })

/-- The method `Insert`. -/
def Insert (fuel : Nat) (i : IntList) (value : Int) : Option (Bool × IntList) :=
  insertLoop fuel value fuel i

/-- The test `b == nil || b.value != value` of `Delete`. -/
def valueIsNot (mem : Heap) (b : Option Nat) (value : Int) : Option Bool :=
  match b with
  | none => some true
  | some p =>
    match mem[p]? with
    | none => none
    | some nb => some (nb.value != value)

/-- The test `a.loadNext() != b || a.isDeleted()` of `Delete`. -/
def staleOrDeleted (mem : Heap) (a b : Nat) : Option Bool :=
  match loadNext mem a with
  | none => none
  | some n =>
    if n ≠ some b then some true
    else isDeleted mem a

/-- The retry loop of `Delete` followed by the commit. -/
def deleteLoop (tfuel : Nat) (value : Int) : Nat → IntList → Option (Bool × IntList)
  | 0, _ => none
  | fuel + 1, i =>
    match findPositions tfuel i value with
    | none => none
    | some (a, b) =>
      match valueIsNot i.mem b value with
      | none => none
      | some true => some (false, i)
      | some false =>
        match b with
        | none => none
        | some b =>
          match lock i.mem b with
          | none => none
          | some m1 =>
            match isDeleted m1 b with
            | none => none
            | some true =>
              match unlock m1 b with
              | none => none
              | some m2 => deleteLoop tfuel value fuel { i with mem := m2 }
            | some false =>
              match lock m1 a with
              | none => none
              | some m2 =>
                match staleOrDeleted m2 a b with
                | none => none
                | some true =>
                  match unlock m2 a with
                  | none => none
                  | some m3 =>
                    match unlock m3 b with
                    | none => none
                    | some m4 => deleteLoop tfuel value fuel { i with mem := m4 }
                | some false =>
                  match setDeleted m2 b with
                  | none => none
                  | some m3 =>
                    match loadNext m3 b with
                    | none => none
                    | some bn =>
                      match storeNext m3 a bn with
                      | none => none
                      | some m4 =>
                        match unlock m4 a with
                        | none => none
                        | some m5 =>
                          match unlock m5 b with
                          | none => none
                          | some m6 =>
                            some (true, { i with mem := m6, len := wrapInt32 (i.len + (-1)) })

/-- The method `Delete`. -/
def Delete (fuel : Nat) (i : IntList) (value : Int) : Option (Bool × IntList) :=
  deleteLoop fuel value fuel i

/-- The loop of `Range`, started at the pointer `x`.  The visitor is a function
of its own state and the visited value, returning its verdict and new state; it
does not touch the set it is walking (`rangeLoopWith` is the same loop for a
visitor that does). -/
def rangeLoop {σ : Type} (mem : Heap) (f : σ → Int → Bool × σ) : Nat → Option Nat → σ → Option σ
  | 0, _, _ => none
  | _ + 1, none, st => some st
  | fuel + 1, some x, st =>
    match mem[x]? with
    | none => none
    | some nx =>
      match f st nx.value with
      | (false, st2) => some st2
      | (true, st2) =>
        match loadNext mem x with
        | none => none
        | some x2 => rangeLoop mem f fuel x2 st2

/-- The method `Range`: returns the state in which the visitor is left. -/
def Range {σ : Type} (fuel : Nat) (i : IntList) (f : σ → Int → Bool × σ) (st : σ) : Option σ :=
  match i.head with
  | none => none
  | some h =>
    match loadNext i.mem h with
    | none => none
    | some x => rangeLoop i.mem f fuel x st

/-- The method `Len`. -/
def Len (i : IntList) : Int := i.len

/-! ## Clients used to state the properties -/

/-- A visitor that records every value it is given and never stops the walk. -/
def collect (acc : List Int) (v : Int) : Bool × List Int := (true, acc ++ [v])

/-- The values `Range` passes to an always-true visitor, in call order. -/
def rangeAll (fuel : Nat) (i : IntList) : Option (List Int) := Range fuel i collect []

/-- A visitor wrapped so that it also records every call made to it: the value
it was given and the verdict it returned. -/
def logged {σ : Type} (f : σ → Int → Bool × σ) :
    σ × List (Int × Bool) → Int → Bool × (σ × List (Int × Bool)) :=
  fun p v => ((f p.1 v).1, ((f p.1 v).2, p.2 ++ [(v, (f p.1 v).1)]))

/-- The loop of `Range` for a visitor that may itself call methods of the set it
is walking: the visitor is handed the set and returns it as it leaves it, and the
walk then reads the successor of the visited node from that set, as
`x.loadNext()` does after `f` has returned. -/
def rangeLoopWith {σ : Type} (f : σ → IntList → Int → Bool × σ × IntList) :
    Nat → IntList → Option Nat → σ → Option (σ × IntList)
  | 0, _, _, _ => none
  | _ + 1, i, none, st => some (st, i)
  | fuel + 1, i, some x, st =>
    match i.mem[x]? with
    | none => none
    | some nx =>
      match f st i nx.value with
      | (false, st2, i2) => some (st2, i2)
      | (true, st2, i2) =>
        match loadNext i2.mem x with
        | none => none
        | some x2 => rangeLoopWith f fuel i2 x2 st2

/-- The method `Range` for a visitor that may itself call methods of the set:
returns the state the visitor is left in and the set as the walk leaves it. -/
def RangeWith {σ : Type} (fuel : Nat) (i : IntList) (f : σ → IntList → Int → Bool × σ × IntList)
    (st : σ) : Option (σ × IntList) :=
  match i.head with
  | none => none
  | some h =>
    match loadNext i.mem h with
    | none => none
    | some x => rangeLoopWith f fuel i x st

/-- A visitor with access to the set, wrapped so that it also records every call
made to it: the value it was given and the verdict it returned. -/
def loggedWith {σ : Type} (f : σ → IntList → Int → Bool × σ × IntList) :
    σ × List (Int × Bool) → IntList → Int → Bool × (σ × List (Int × Bool)) × IntList :=
  fun p i v => ((f p.1 i v).1, ((f p.1 i v).2.1, p.2 ++ [(v, (f p.1 i v).1)]), (f p.1 i v).2.2)

/-- A visitor that always answers true and, when it is given the value 3, calls
`Delete(5)` on the set. -/
def deleteFiveAtThree : Unit → IntList → Int → Bool × Unit × IntList :=
  fun st i v =>
    if v = 3 then
      match Delete 4 i 5 with
      | some (_, i2) => (true, st, i2)
      | none => (true, st, i)
    else (true, st, i)

/-- A call of one of the two mutating methods. -/
inductive Op where
  | insert (value : Int)
  | delete (value : Int)
deriving DecidableEq, Repr

/-- Runs one call and returns its result and the state it leaves. -/
def Op.run (fuel : Nat) (i : IntList) : Op → Option (Bool × IntList)
  | Op.insert v => Insert fuel i v
  | Op.delete v => Delete fuel i v

/-- Runs the calls one after another, keeping the results in call order. -/
def runOps (fuel : Nat) : List Op → IntList → Option (List Bool × IntList)
  | [], i => some ([], i)
  | op :: ops, i =>
    match op.run fuel i with
    | none => none
    | some (r, i2) =>
      match runOps fuel ops i2 with
      | none => none
      | some (rs, i3) => some (r :: rs, i3)

/-- The calls `Insert(n-1)`, `Insert(n-2)`, ..., `Insert(0)`, in this order: each
value goes to the front of the chain. -/
def descending : Nat → List Op
  | 0 => []
  | n + 1 => Op.insert n :: descending n

/-- The states a single-threaded client can reach: the result of `NewInt`, and
every state a completed `Insert` or `Delete` call leaves. -/
inductive Reachable : IntList → Prop
  | newInt : Reachable NewInt
  | insert {i i2 : IntList} {r : Bool} (fuel : Nat) (v : Int) :
      Reachable i → Insert fuel i v = some (r, i2) → Reachable i2
  | delete {i i2 : IntList} {r : Bool} (fuel : Nat) (v : Int) :
      Reachable i → Delete fuel i v = some (r, i2) → Reachable i2

/-- The state after `Insert(5)`, `Insert(3)`, `Insert(8)` on a fresh set: the
head at address 0, then the nodes in allocation order. -/
def sample : IntList :=
  { mem := [{ value := -1, marked := 0, next := some 2, mu := false },
            { value := 5, marked := 0, next := some 3, mu := false },
            { value := 3, marked := 0, next := some 1, mu := false },
            { value := 8, marked := 0, next := none, mu := false }],
    head := some 0,
    len := 3 }

/-- Every node of `mem` is still a node of `mem2`, with the same value and the
same deletion flag. -/
def SameFlags (mem mem2 : Heap) : Prop :=
  ∀ (p : Nat) (n : Node), mem[p]? = some n →
    ∃ n2 : Node, mem2[p]? = some n2 ∧ n2.value = n.value ∧ n2.marked = n.marked

/-- The two heaps have the same nodes, each with the same value and flag. -/
def SameNodes (mem mem2 : Heap) : Prop :=
  mem2.length = mem.length ∧ SameFlags mem mem2

/-- Every node of `mem` is still a node of `mem2`, with the same value, and with
its deletion flag set if it was set. -/
def Keeps (mem mem2 : Heap) : Prop :=
  ∀ (p : Nat) (n : Node), mem[p]? = some n →
    ∃ n2 : Node, mem2[p]? = some n2 ∧ n2.value = n.value ∧
      (n.marked = nodeDeleted → n2.marked = nodeDeleted)

/-- Between `mem` and `mem2` the flag of node `b` went from clear to set, and
every other node kept its value and flag; `b` kept its value. -/
def MarksOne (mem mem2 : Heap) (b : Nat) : Prop :=
  (∃ nb nb2 : Node, mem[b]? = some nb ∧ nb.marked ≠ nodeDeleted ∧ mem2[b]? = some nb2 ∧
    nb2.marked = nodeDeleted ∧ nb2.value = nb.value) ∧
  ∀ (p : Nat) (n : Node), p ≠ b → mem[p]? = some n →
    ∃ n2 : Node, mem2[p]? = some n2 ∧ n2.value = n.value ∧ n2.marked = n.marked

/-- Node `q` is reached from node `p` by following successor pointers. -/
inductive Linked (mem : Heap) : Nat → Nat → Prop
  | refl (p : Nat) : Linked mem p p
  | step {p q r : Nat} : Linked mem p q → loadNext mem q = some (some r) → Linked mem p r

/-- The state `Delete(3)` leaves when called on the sample state. -/
def afterDelete : IntList :=
  { mem := [{ value := -1, marked := 0, next := some 1, mu := false },
            { value := 5, marked := 0, next := some 3, mu := false },
            { value := 3, marked := 1, next := some 1, mu := false },
            { value := 8, marked := 0, next := none, mu := false }],
    head := some 0,
    len := 2 }

/-- The sample state in the middle of `Delete(3)`: the mutexes of the node 3 and
of the head are held and the flag of the node 3 is stored, but the head still
points to it. -/
def midDelete : IntList :=
  { mem := [{ value := -1, marked := 0, next := some 2, mu := true },
            { value := 5, marked := 0, next := some 3, mu := false },
            { value := 3, marked := 1, next := some 1, mu := true },
            { value := 8, marked := 0, next := none, mu := false }],
    head := some 0,
    len := 3 }

/-! ## The chain behind the head node -/

/-- A cell of the chain: the address of a node and the node stored there. -/
abbrev Cell := Nat × Node

/-- Following successor pointers from `p` in `mem` passes exactly the cells of
the list, in order, and arrives at the pointer `q`. -/
def IsSeg (mem : Heap) : Option Nat → List Cell → Option Nat → Prop
  | p, [], q => p = q
  | p, c :: rest, q => p = some c.1 ∧ mem[c.1]? = some c.2 ∧ IsSeg mem c.2.next rest q

/-- The values stored in a list of cells. -/
def vals (cells : List Cell) : List Int := cells.map (fun c => c.2.value)

/-- The address of the last cell of `l`, or `a` when `l` is empty. -/
def lastAddr (a : Nat) : List Cell → Nat
  | [] => a
  | c :: l => lastAddr c.1 l

/-- What a walk over the values `vs` does to a visitor: call it on each value in
turn until it answers false or the values are exhausted. -/
def visit {σ : Type} (f : σ → Int → Bool × σ) : σ → List Int → σ
  | st, [] => st
  | st, v :: vs =>
    match f st v with
    | (false, st2) => st2
    | (true, st2) => visit f st2 vs

/-- The state of a set at rest: the head `h` holds node `hn`, the chain behind it
is `cells`, strictly ascending, unmarked and free of cycles, every mutex is
free, the counter is the wrapped number of cells, and the head still holds the
value `NewInt` gave it. -/
structure Inv (s : IntList) (h : Nat) (hn : Node) (cells : List Cell) : Prop where
  head_eq : s.head = some h
  chain : IsSeg s.mem (some h) ((h, hn) :: cells) none
  nodup : (((h, hn) :: cells).map Prod.fst).Nodup
  sorted : (vals cells).Pairwise (fun x y => x < y)
  live : ∀ c ∈ (h, hn) :: cells, c.2.marked = 0
  free : ∀ n ∈ s.mem, n.mu = false
  room : cells.length + 1 ≤ s.mem.length
  len_eq : s.len = wrapInt32 cells.length
  sentinel : hn.value = -1

/-! ## Lemmas on chains -/

theorem IsSeg_nil (mem : Heap) (p q : Option Nat) : IsSeg mem p [] q ↔ p = q := Iff.rfl

theorem IsSeg_cons (mem : Heap) (c : Cell) (l : List Cell) (p q : Option Nat) :
    IsSeg mem p (c :: l) q ↔ p = some c.1 ∧ mem[c.1]? = some c.2 ∧ IsSeg mem c.2.next l q :=
  Iff.rfl

theorem IsSeg_append (mem : Heap) : ∀ (l r : List Cell) (p q : Option Nat),
    IsSeg mem p (l ++ r) q ↔ ∃ m, IsSeg mem p l m ∧ IsSeg mem m r q := by
  intro l
  induction l with
  | nil => intro r p q; simp [IsSeg_nil]
  | cons c l ih =>
    intro r p q
    rw [List.cons_append, IsSeg_cons, ih]
    simp only [IsSeg_cons]
    constructor
    · rintro ⟨h1, h2, m, h3, h4⟩
      exact ⟨m, ⟨h1, h2, h3⟩, h4⟩
    · rintro ⟨m, ⟨h1, h2, h3⟩, h4⟩
      exact ⟨h1, h2, m, h3, h4⟩

theorem IsSeg_frame (mem mem2 : Heap) : ∀ (l : List Cell) (p q : Option Nat),
    (∀ c ∈ l, mem2[c.1]? = mem[c.1]?) → IsSeg mem p l q → IsSeg mem2 p l q := by
  intro l
  induction l with
  | nil => intro p q _ h; exact h
  | cons c l ih =>
    intro p q hf h
    obtain ⟨h1, h2, h3⟩ := h
    refine ⟨h1, ?_, ih _ _ (fun d hd => hf d (List.mem_cons_of_mem _ hd)) h3⟩
    rw [hf c (List.mem_cons_self _ _)]; exact h2

theorem IsSeg_lt (mem : Heap) : ∀ (l : List Cell) (p q : Option Nat),
    IsSeg mem p l q → ∀ c ∈ l, c.1 < mem.length := by
  intro l
  induction l with
  | nil => intro p q _ c hc; simp at hc
  | cons c l ih =>
    intro p q h d hd
    obtain ⟨_, h2, h3⟩ := h
    rcases List.mem_cons.1 hd with rfl | hd
    · exact (List.getElem?_eq_some_iff.1 h2).1
    · exact ih _ _ h3 d hd

theorem rangeLoop_spec {σ : Type} (mem : Heap) (f : σ → Int → Bool × σ) :
    ∀ (l : List Cell) (fuel : Nat) (p : Option Nat) (st : σ),
    IsSeg mem p l none → l.length < fuel →
    rangeLoop mem f fuel p st = some (visit f st (vals l)) := by
  intro l
  induction l with
  | nil =>
    intro fuel p st h hf
    cases fuel with
    | zero => simp at hf
    | succ k => simp only [IsSeg] at h; subst h; simp [rangeLoop, visit, vals]
  | cons c l ih =>
    intro fuel p st h hf
    obtain ⟨h1, h2, h3⟩ := h
    cases fuel with
    | zero => simp at hf
    | succ k =>
      subst h1
      have hk : l.length < k := by simpa using hf
      simp only [rangeLoop, h2, vals, List.map_cons, visit, loadNext]
      rcases hfv : f st c.2.value with ⟨r, st2⟩
      cases r with
      | false => simp
      | true => simpa [vals] using ih k c.2.next st2 h3 hk

theorem vals_cons (c : Cell) (l : List Cell) : vals (c :: l) = c.2.value :: vals l := rfl

theorem vals_append (l r : List Cell) : vals (l ++ r) = vals l ++ vals r := by
  simp [vals]

theorem containsLoop_spec (mem : Heap) (v : Int) :
    ∀ (l : List Cell) (fuel : Nat) (p : Option Nat),
    IsSeg mem p l none → l.length < fuel → (vals l).Pairwise (fun x y => x < y) →
    (∀ c ∈ l, c.2.marked = 0) →
    containsLoop mem v fuel p = some (decide (v ∈ vals l)) := by
  intro l
  induction l with
  | nil =>
    intro fuel p h hf _ _
    cases fuel with
    | zero => simp at hf
    | succ k => rw [IsSeg_nil] at h; subst h; simp [containsLoop, vals]
  | cons c l ih =>
    intro fuel p h hf hs hm
    obtain ⟨h1, h2, h3⟩ := h
    cases fuel with
    | zero => simp at hf
    | succ k =>
      subst h1
      have hk : l.length < k := by simpa using hf
      rw [vals_cons, List.pairwise_cons] at hs
      have hc : c.2.marked = 0 := hm c (List.mem_cons_self _ _)
      have ih2 := ih k c.2.next h3 hk hs.2 (fun d hd => hm d (List.mem_cons_of_mem _ hd))
      simp only [containsLoop, h2, loadNext, isDeleted, vals_cons, List.mem_cons]
      by_cases hlt : v < c.2.value
      · have : ¬ (v = c.2.value ∨ v ∈ vals l) := by
          rintro (h | h)
          · omega
          · have := hs.1 v h; omega
        simp [hlt, this]
      · by_cases hne : v = c.2.value
        · simp [hne, hc, nodeDeleted]
        · simp [hlt, hne, ih2]

theorem findLoop_spec (mem : Heap) (v : Int) :
    ∀ (l : List Cell) (fuel : Nat) (a : Nat) (p : Option Nat),
    IsSeg mem p l none → l.length < fuel →
    ∃ l1 l2, l = l1 ++ l2 ∧ (∀ c ∈ l1, c.2.value < v) ∧ (∀ c ∈ l2.head?, v ≤ c.2.value) ∧
      findLoop mem v fuel a p = some (lastAddr a l1, l2.head?.map Prod.fst) := by
  intro l
  induction l with
  | nil =>
    intro fuel a p h hf
    cases fuel with
    | zero => simp at hf
    | succ k =>
      rw [IsSeg_nil] at h; subst h
      exact ⟨[], [], rfl, by simp, by simp, by simp [findLoop, lastAddr]⟩
  | cons c l ih =>
    intro fuel a p h hf
    obtain ⟨h1, h2, h3⟩ := h
    cases fuel with
    | zero => simp at hf
    | succ k =>
      subst h1
      have hk : l.length < k := by simpa using hf
      by_cases hlt : c.2.value < v
      · obtain ⟨l1, l2, e, p1, p2, p3⟩ := ih k c.1 c.2.next h3 hk
        refine ⟨c :: l1, l2, by simp [e], ?_, p2, ?_⟩
        · intro d hd
          rcases List.mem_cons.1 hd with rfl | hd
          · exact hlt
          · exact p1 d hd
        · simp [findLoop, h2, hlt, loadNext, p3, lastAddr]
      · refine ⟨[], c :: l, rfl, by simp, ?_, ?_⟩
        · intro d hd
          simp at hd; subst hd; omega
        · simp [findLoop, h2, hlt, lastAddr]

theorem exists_snoc (c : Cell) : ∀ (l : List Cell),
    ∃ pre d, c :: l = pre ++ [d] ∧ d.1 = lastAddr c.1 l := by
  intro l
  induction l generalizing c with
  | nil => exact ⟨[], c, rfl, rfl⟩
  | cons e l ih =>
    obtain ⟨pre, d, h1, h2⟩ := ih e
    exact ⟨c :: pre, d, by rw [h1]; rfl, by simpa [lastAddr] using h2⟩

/-! ## The commit steps of the two mutating methods -/

theorem insert_commit (s : IntList) (v : Int) (fuel k a : Nat) (b : Option Nat) (na : Node)
    (hfind : findPositions fuel s v = some (a, b)) (hval : valueIs s.mem b v = some false)
    (ha : s.mem[a]? = some na) (hmu : na.mu = false) (hnext : na.next = b)
    (hma : na.marked = 0)
    (hb : ∀ p, b = some p → p ≠ a ∧ ∃ nb, s.mem[p]? = some nb ∧ nb.marked = 0) :
    insertLoop fuel v (k + 1) s = some (true,
      { s with mem := s.mem.set a { na with next := some s.mem.length } ++
                        [{ value := v, marked := 0, next := b, mu := false }],
               len := wrapInt32 (s.len + 1) }) := by
  have hlt : a < s.mem.length := (List.getElem?_eq_some_iff.1 ha).1
  have hdel : eitherDeleted (s.mem.set a ⟨na.value, na.marked, b, true⟩) a b = some false := by
    cases b with
    | none => simp [eitherDeleted, isDeleted, hlt, hma, nodeDeleted]
    | some p =>
      obtain ⟨hpa, nb, hnb, hmb⟩ := hb p rfl
      simp [eitherDeleted, isDeleted, hlt, hma, nodeDeleted, List.getElem?_set_ne (Ne.symm hpa),
        hnb, hmb]
  simp only [insertLoop, hfind, hval, lock, ha, hmu, Bool.false_eq_true, if_false]
  simp [hlt, hnext, hdel, newNode, storeNext, unlock, List.getElem?_append_left, List.set_append,
    hmu]

theorem delete_commit (s : IntList) (v : Int) (fuel k a b : Nat) (na nb : Node)
    (hfind : findPositions fuel s v = some (a, some b))
    (hval : valueIsNot s.mem (some b) v = some false)
    (ha : s.mem[a]? = some na) (hmu : na.mu = false) (hnext : na.next = some b)
    (hma : na.marked = 0) (hab : a ≠ b)
    (hb : s.mem[b]? = some nb) (hmub : nb.mu = false) (hmb : nb.marked = 0) :
    deleteLoop fuel v (k + 1) s = some (true,
      { s with mem := (s.mem.set b { nb with marked := nodeDeleted }).set a
                        { na with next := nb.next },
               len := wrapInt32 (s.len + (-1)) }) := by
  have hlt : a < s.mem.length := (List.getElem?_eq_some_iff.1 ha).1
  have hltb : b < s.mem.length := (List.getElem?_eq_some_iff.1 hb).1
  simp only [deleteLoop, hfind, hval, lock, hb, hmub, Bool.false_eq_true, if_false]
  simp [hlt, hltb, isDeleted, hmb, nodeDeleted, lock, List.getElem?_set_ne hab,
    List.getElem?_set_ne (Ne.symm hab), ha, hmu, staleOrDeleted, loadNext, hnext, hma,
    setDeleted, storeNext, unlock]
  apply List.ext_getElem?
  intro i
  simp only [List.getElem?_set, List.length_set]
  by_cases h1 : a = i
  · subst h1; simp [hlt, hab, Ne.symm hab]
  · by_cases h2 : b = i
    · subst h2; simp [hltb, h1]
    · simp [h1, h2]

/-! ## Insert keeps the invariant -/
theorem wrapInt32_add (x y : Int) : wrapInt32 (wrapInt32 x + y) = wrapInt32 (x + y) := by
  unfold wrapInt32; omega

theorem recons (h : Nat) (hn : Node) (l1 pre : List Cell) (d : Cell)
    (hsn : (h, hn) :: l1 = pre ++ [d]) (d2 : Node) (tl : List Cell)
    (hv : d2.value = d.2.value) :
    ∃ hn2 l3, pre ++ (d.1, d2) :: tl = (h, hn2) :: (l3 ++ tl) ∧ vals l3 = vals l1 ∧
      hn2.value = hn.value := by
  cases pre with
  | nil =>
    simp only [List.nil_append, List.cons.injEq] at hsn
    obtain ⟨rfl, rfl⟩ := hsn
    exact ⟨d2, [], rfl, rfl, hv⟩
  | cons p pre2 =>
    simp only [List.cons_append, List.cons.injEq] at hsn
    obtain ⟨rfl, rfl⟩ := hsn
    exact ⟨hn, pre2 ++ [(d.1, d2)], by simp, by simp [vals, hv], rfl⟩

theorem frame_insert (mem : Heap) (a : Nat) (n x : Node) (i : Nat) (hne : i ≠ a)
    (hlt : i < mem.length) : (mem.set a n ++ [x])[i]? = mem[i]? := by
  rw [List.getElem?_append_left (by simpa using hlt), List.getElem?_set_ne (Ne.symm hne)]

theorem chain_insert (mem : Heap) (h : Nat) (pre l2 : List Cell) (d : Cell) (v : Int)
    (hc : IsSeg mem (some h) (pre ++ d :: l2) none)
    (hnd : ((pre ++ d :: l2).map Prod.fst).Nodup) :
    IsSeg (mem.set d.1 { d.2 with next := some mem.length } ++
        [{ value := v, marked := 0, next := d.2.next, mu := false }]) (some h)
      (pre ++ (d.1, { d.2 with next := some mem.length }) ::
        (mem.length, { value := v, marked := 0, next := d.2.next, mu := false }) :: l2) none := by
  have hlt := IsSeg_lt mem _ _ _ hc
  obtain ⟨m, s1, s2⟩ := (IsSeg_append mem pre (d :: l2) (some h) none).1 hc
  obtain ⟨hm, hdm, hl2⟩ := s2
  have hd : d.1 < mem.length := hlt d (by simp)
  simp only [List.map_append, List.map_cons] at hnd
  have hnd2 := List.nodup_append.1 hnd
  have hnd3 := List.nodup_cons.1 hnd2.2.1
  refine (IsSeg_append _ pre _ (some h) none).2 ⟨m, ?_, hm, ?_, ?_, ?_, ?_⟩
  · refine IsSeg_frame mem _ pre _ _ (fun c hc2 => ?_) s1
    refine frame_insert mem d.1 _ _ c.1 ?_ (hlt c (by simp [hc2]))
    intro heq
    exact hnd2.2.2 (List.mem_map_of_mem Prod.fst hc2) (by simp [heq])
  · show (mem.set d.1 _ ++ _)[d.1]? = _
    rw [List.getElem?_append_left (by simpa using hd)]
    simp [hd]
  · rfl
  · show (mem.set d.1 _ ++ _)[mem.length]? = _
    simp
  · refine IsSeg_frame mem _ l2 _ _ (fun c hc2 => ?_) hl2
    refine frame_insert mem d.1 _ _ c.1 ?_ (hlt c (by simp [hc2]))
    intro heq
    exact hnd3.1 (heq ▸ List.mem_map_of_mem Prod.fst hc2)

theorem insertLoop_spec (s : IntList) (h : Nat) (hn : Node) (cells : List Cell) (v : Int)
    (tf k : Nat) (inv : Inv s h hn cells) (hf : cells.length < tf) :
    (v ∈ vals cells ∧ insertLoop tf v (k + 1) s = some (false, s)) ∨
    (v ∉ vals cells ∧ ∃ s2 hn2 cells2 l1 l2, insertLoop tf v (k + 1) s = some (true, s2) ∧
      Inv s2 h hn2 cells2 ∧ vals cells = l1 ++ l2 ∧ vals cells2 = l1 ++ v :: l2 ∧
      (∀ x ∈ l1, x < v) ∧ (∀ x ∈ l2, v < x) ∧
      s2.len = wrapInt32 (s.len + 1) ∧ s2.mem.length = s.mem.length + 1) := by
  obtain ⟨_, hhn, hch⟩ := inv.chain
  obtain ⟨l1, l2, e, p1, p2, p3⟩ := findLoop_spec s.mem v cells tf h hn.next hch hf
  have hfind : findPositions tf s v = some (lastAddr h l1, l2.head?.map Prod.fst) := by
    simp only [findPositions, inv.head_eq, loadNext]
    simp only [show s.mem[h]? = some hn from hhn, p3]
  obtain ⟨pre, d, hsn, hd⟩ := exists_snoc (h, hn) l1
  have hfull : (h, hn) :: cells = pre ++ d :: l2 := by
    rw [e, ← List.cons_append, hsn]; simp
  have hch2 := inv.chain
  rw [hfull] at hch2
  have hnd := inv.nodup
  rw [hfull] at hnd
  have hlive := inv.live
  rw [hfull] at hlive
  have hsorted := inv.sorted
  rw [e, vals_append] at hsorted
  obtain ⟨m, s1, hm, hdm, hl2⟩ := (IsSeg_append s.mem pre (d :: l2) (some h) none).1 hch2
  rw [← hd] at hfind
  by_cases hpres : ∃ c ∈ l2.head?, c.2.value = v
  · left
    obtain ⟨c, hc, hcv⟩ := hpres
    cases l2 with
    | nil => simp at hc
    | cons c2 l3 =>
      simp only [List.head?_cons, Option.mem_def, Option.some.injEq] at hc
      subst hc
      obtain ⟨_, hc2, _⟩ := hl2
      refine ⟨by rw [e, vals_append]; simp [vals_cons, hcv], ?_⟩
      have hval : valueIs s.mem (some c2.1) v = some true := by
        simp only [valueIs]
        simp only [show s.mem[c2.1]? = some c2.2 from hc2]
        simp [hcv]
      simp only [insertLoop, hfind, List.head?_cons, Option.map_some', hval]
  · right
    have hgt : ∀ x ∈ vals l2, v < x := by
      cases l2 with
      | nil => simp [vals]
      | cons c2 l3 =>
        have h1 : v ≤ c2.2.value := p2 c2 (by simp)
        have h2 : c2.2.value ≠ v := fun hh => hpres ⟨c2, by simp, hh⟩
        have h3 : ∀ y ∈ vals l3, c2.2.value < y :=
          (List.pairwise_cons.1 (List.pairwise_append.1 hsorted).2.1).1
        intro x hx
        rw [vals_cons] at hx
        rcases List.mem_cons.1 hx with rfl | hx
        · omega
        · have := h3 x hx; omega
    have hlt1 : ∀ x ∈ vals l1, x < v := by
      intro x hx
      obtain ⟨c, hc, rfl⟩ := List.mem_map.1 hx
      exact p1 c hc
    have hnot : v ∉ vals cells := by
      rw [e, vals_append, List.mem_append]
      rintro (hx | hx)
      · have := hlt1 v hx; omega
      · have := hgt v hx; omega
    refine ⟨hnot, ?_⟩
    have hdmem : d ∈ pre ++ d :: l2 := by simp
    have hdfree : d.2.mu = false := inv.free d.2 (List.getElem?_mem hdm)
    have hdlive : d.2.marked = 0 := hlive d hdmem
    have hdlt : d.1 < s.mem.length := (List.getElem?_eq_some_iff.1 hdm).1
    have hnext : d.2.next = l2.head?.map Prod.fst := by
      cases l2 with
      | nil => exact hl2
      | cons c2 l3 => exact hl2.1
    have hval : valueIs s.mem (l2.head?.map Prod.fst) v = some false := by
      cases l2 with
      | nil => rfl
      | cons c2 l3 =>
        have h2 : c2.2.value ≠ v := fun hh => hpres ⟨c2, by simp, hh⟩
        simp only [List.head?_cons, Option.map_some', valueIs]
        simp only [show s.mem[c2.1]? = some c2.2 from hl2.2.1]
        simp [h2]
    have hb : ∀ p, l2.head?.map Prod.fst = some p →
        p ≠ d.1 ∧ ∃ nb, s.mem[p]? = some nb ∧ nb.marked = 0 := by
      intro p hp
      cases l2 with
      | nil => simp at hp
      | cons c2 l3 =>
        simp only [List.head?_cons, Option.map_some', Option.some.injEq] at hp
        subst hp
        refine ⟨?_, c2.2, hl2.2.1, hlive c2 (by simp)⟩
        intro heq
        simp only [List.map_append, List.map_cons] at hnd
        have := (List.nodup_cons.1 (List.nodup_append.1 hnd).2.1).1
        exact this (by simp [heq])
    have hins := insert_commit s v tf k d.1 _ d.2 hfind hval hdm hdfree hnext hdlive hb
    rw [← hnext] at hins
    obtain ⟨hn2, l3, hre, hvl, hsv⟩ := recons h hn l1 pre d hsn
      { d.2 with next := some s.mem.length }
      ((s.mem.length, { value := v, marked := 0, next := d.2.next, mu := false }) :: l2) rfl
    refine ⟨_, hn2, l3 ++ (s.mem.length, ⟨v, 0, d.2.next, false⟩) :: l2, vals l1, vals l2,
      hins, ?_, by rw [e, vals_append], by simp [vals_append, vals_cons, hvl], hlt1, hgt, rfl,
      by simp⟩
    have hlen3 : l3.length = l1.length := by
      have := congrArg List.length hvl
      simpa [vals] using this
    have hltall := IsSeg_lt s.mem _ _ _ hch2
    have hfresh : s.mem.length ∉ (pre ++ d :: l2).map Prod.fst := by
      intro hx
      obtain ⟨c, hc, hc2⟩ := List.mem_map.1 hx
      have := hltall c hc
      omega
    constructor
    · exact inv.head_eq
    · show IsSeg _ (some h) ((h, hn2) :: _) none
      rw [← hre]
      exact chain_insert s.mem h pre l2 d v hch2 hnd
    · rw [← hre]
      simp only [List.map_append, List.map_cons] at hnd hfresh ⊢
      have hperm : (List.map Prod.fst pre ++ d.1 :: s.mem.length :: List.map Prod.fst l2).Perm
          (s.mem.length :: (List.map Prod.fst pre ++ d.1 :: List.map Prod.fst l2)) := by
        have := @List.perm_middle _ s.mem.length (List.map Prod.fst pre ++ [d.1])
          (List.map Prod.fst l2)
        simpa using this
      exact hperm.nodup_iff.2 (List.nodup_cons.2 ⟨hfresh, hnd⟩)
    · rw [vals_append, vals_cons, hvl]
      refine List.pairwise_append.2 ⟨(List.pairwise_append.1 hsorted).1, ?_, ?_⟩
      · refine List.pairwise_cons.2 ⟨hgt, (List.pairwise_append.1 hsorted).2.1⟩
      · intro x hx y hy
        rcases List.mem_cons.1 hy with rfl | hy
        · exact hlt1 x hx
        · exact (List.pairwise_append.1 hsorted).2.2 x hx y hy
    · rw [← hre]
      intro c hc
      rcases List.mem_append.1 hc with hc | hc
      · exact hlive c (by simp [hc])
      · rcases List.mem_cons.1 hc with rfl | hc
        · exact hdlive
        · rcases List.mem_cons.1 hc with rfl | hc
          · rfl
          · exact hlive c (by simp [hc])
    · intro n hmem
      rcases List.mem_append.1 hmem with hmem | hmem
      · rcases List.mem_or_eq_of_mem_set hmem with hmem | rfl
        · exact inv.free n hmem
        · exact hdfree
      · simp only [List.mem_singleton] at hmem
        subst hmem; rfl
    · have := inv.room
      simp only [List.length_append, List.length_cons, List.length_set, List.length_nil,
        hlen3, e] at this ⊢
      omega
    · show wrapInt32 (s.len + 1) = _
      rw [inv.len_eq, wrapInt32_add]
      simp only [List.length_append, List.length_cons, hlen3, e]
      push_cast
      congr 1
    · rw [hsv]; exact inv.sentinel

theorem insert_spec (s : IntList) (h : Nat) (hn : Node) (cells : List Cell) (v : Int)
    (fuel : Nat) (inv : Inv s h hn cells) (hf : cells.length < fuel) :
    (v ∈ vals cells ∧ Insert fuel s v = some (false, s)) ∨
    (v ∉ vals cells ∧ ∃ s2 hn2 cells2 l1 l2, Insert fuel s v = some (true, s2) ∧
      Inv s2 h hn2 cells2 ∧ vals cells = l1 ++ l2 ∧ vals cells2 = l1 ++ v :: l2 ∧
      (∀ x ∈ l1, x < v) ∧ (∀ x ∈ l2, v < x) ∧
      s2.len = wrapInt32 (s.len + 1) ∧ s2.mem.length = s.mem.length + 1) := by
  cases fuel with
  | zero => simp at hf
  | succ k => exact insertLoop_spec s h hn cells v (k + 1) k inv hf

/-! ## Delete keeps the invariant -/
theorem frame_delete (mem : Heap) (a b : Nat) (na nb : Node) (i : Nat) (ha : i ≠ a)
    (hb : i ≠ b) : ((mem.set b nb).set a na)[i]? = mem[i]? := by
  rw [List.getElem?_set_ne (Ne.symm ha), List.getElem?_set_ne (Ne.symm hb)]

theorem chain_delete (mem : Heap) (h : Nat) (pre l2 : List Cell) (d c : Cell)
    (hc : IsSeg mem (some h) (pre ++ d :: c :: l2) none)
    (hnd : ((pre ++ d :: c :: l2).map Prod.fst).Nodup) :
    IsSeg ((mem.set c.1 { c.2 with marked := nodeDeleted }).set d.1
        { d.2 with next := c.2.next }) (some h)
      (pre ++ (d.1, { d.2 with next := c.2.next }) :: l2) none := by
  have hlt := IsSeg_lt mem _ _ _ hc
  obtain ⟨m, s1, hm, hdm, _, hcm, hl2⟩ := (IsSeg_append mem pre (d :: c :: l2) (some h) none).1 hc
  have hd : d.1 < mem.length := hlt d (by simp)
  simp only [List.map_append, List.map_cons] at hnd
  have hnd2 := List.nodup_append.1 hnd
  have hnd3 := List.nodup_cons.1 hnd2.2.1
  have hnd4 := List.nodup_cons.1 hnd3.2
  refine (IsSeg_append _ pre _ (some h) none).2 ⟨m, ?_, hm, ?_, ?_⟩
  · refine IsSeg_frame mem _ pre _ _ (fun x hx => ?_) s1
    refine frame_delete mem d.1 c.1 _ _ x.1 ?_ ?_
    · intro heq
      exact hnd2.2.2 (List.mem_map_of_mem Prod.fst hx) (by simp [heq])
    · intro heq
      exact hnd2.2.2 (List.mem_map_of_mem Prod.fst hx) (by simp [heq])
  · show ((mem.set c.1 _).set d.1 _)[d.1]? = _
    simp [hd]
  · refine IsSeg_frame mem _ l2 _ _ (fun x hx => ?_) hl2
    refine frame_delete mem d.1 c.1 _ _ x.1 ?_ ?_
    · intro heq
      exact hnd3.1 (by simp [← heq, List.mem_map_of_mem Prod.fst hx])
    · intro heq
      exact hnd4.1 (heq ▸ List.mem_map_of_mem Prod.fst hx)

theorem deleteLoop_spec (s : IntList) (h : Nat) (hn : Node) (cells : List Cell) (v : Int)
    (tf k : Nat) (inv : Inv s h hn cells) (hf : cells.length < tf) :
    (v ∉ vals cells ∧ deleteLoop tf v (k + 1) s = some (false, s)) ∨
    (v ∈ vals cells ∧ ∃ s2 hn2 cells2 l1 l2, deleteLoop tf v (k + 1) s = some (true, s2) ∧
      Inv s2 h hn2 cells2 ∧ vals cells = l1 ++ v :: l2 ∧ vals cells2 = l1 ++ l2 ∧
      (∀ x ∈ l1, x < v) ∧ (∀ x ∈ l2, v < x) ∧
      s2.len = wrapInt32 (s.len + (-1)) ∧ s2.mem.length = s.mem.length ∧
      ∃ a b na nb post, a ≠ b ∧ s.mem[a]? = some na ∧ s.mem[b]? = some nb ∧
        na.next = some b ∧ nb.value = v ∧
        s2.mem = (s.mem.set b { nb with marked := nodeDeleted }).set a
          { na with next := nb.next } ∧
        IsSeg s.mem nb.next post none ∧ vals post = l2 ∧
        (∀ c ∈ post, c.1 ≠ a ∧ c.1 ≠ b)) := by
  obtain ⟨_, hhn, hch⟩ := inv.chain
  obtain ⟨l1, l2, e, p1, p2, p3⟩ := findLoop_spec s.mem v cells tf h hn.next hch hf
  have hfind : findPositions tf s v = some (lastAddr h l1, l2.head?.map Prod.fst) := by
    simp only [findPositions, inv.head_eq, loadNext]
    simp only [show s.mem[h]? = some hn from hhn, p3]
  obtain ⟨pre, d, hsn, hd⟩ := exists_snoc (h, hn) l1
  have hfull : (h, hn) :: cells = pre ++ d :: l2 := by
    rw [e, ← List.cons_append, hsn]; simp
  have hch2 := inv.chain
  rw [hfull] at hch2
  have hnd := inv.nodup
  rw [hfull] at hnd
  have hlive := inv.live
  rw [hfull] at hlive
  have hsorted := inv.sorted
  rw [e, vals_append] at hsorted
  obtain ⟨m, s1, hm, hdm, hl2⟩ := (IsSeg_append s.mem pre (d :: l2) (some h) none).1 hch2
  rw [← hd] at hfind
  have hlt1 : ∀ x ∈ vals l1, x < v := by
    intro x hx
    obtain ⟨c, hc, rfl⟩ := List.mem_map.1 hx
    exact p1 c hc
  by_cases hpres : ∃ c ∈ l2.head?, c.2.value = v
  · right
    obtain ⟨c, hc, hcv⟩ := hpres
    cases l2 with
    | nil => simp at hc
    | cons c2 l3 =>
      simp only [List.head?_cons, Option.mem_def, Option.some.injEq] at hc
      subst hc
      obtain ⟨hnext, hc2, hl3⟩ := hl2
      have hgt : ∀ x ∈ vals l3, v < x := by
        have h3 : ∀ y ∈ vals l3, c2.2.value < y :=
          (List.pairwise_cons.1 (List.pairwise_append.1 hsorted).2.1).1
        intro x hx
        have := h3 x hx; omega
      refine ⟨by rw [e, vals_append]; simp [vals_cons, hcv], ?_⟩
      have hval : valueIsNot s.mem (some c2.1) v = some false := by
        simp only [valueIsNot]
        simp only [show s.mem[c2.1]? = some c2.2 from hc2]
        simp [hcv]
      have hdfree : d.2.mu = false := inv.free d.2 (List.getElem?_mem hdm)
      have hcfree : c2.2.mu = false := inv.free c2.2 (List.getElem?_mem hc2)
      have hdlive : d.2.marked = 0 := hlive d (by simp)
      have hclive : c2.2.marked = 0 := hlive c2 (by simp)
      have hab : d.1 ≠ c2.1 := by
        intro heq
        simp only [List.map_append, List.map_cons] at hnd
        have := (List.nodup_cons.1 (List.nodup_append.1 hnd).2.1).1
        exact this (by simp [heq])
      simp only [List.head?_cons, Option.map_some'] at hfind
      have hdel := delete_commit s v tf k d.1 c2.1 d.2 c2.2 hfind hval hdm hdfree hnext
        hdlive hab hc2 hcfree hclive
      obtain ⟨hn2, l4, hre, hvl, hsv⟩ := recons h hn l1 pre d hsn
        { d.2 with next := c2.2.next } l3 rfl
      have hlen4 : l4.length = l1.length := by
        have := congrArg List.length hvl
        simpa [vals] using this
      have hpost : ∀ c ∈ l3, c.1 ≠ d.1 ∧ c.1 ≠ c2.1 := by
        intro c hc
        simp only [List.map_append, List.map_cons] at hnd
        have hn3 := List.nodup_cons.1 (List.nodup_append.1 hnd).2.1
        have hn4 := List.nodup_cons.1 hn3.2
        constructor
        · intro heq
          exact hn3.1 (by simp [← heq, List.mem_map_of_mem Prod.fst hc])
        · intro heq
          exact hn4.1 (heq ▸ List.mem_map_of_mem Prod.fst hc)
      refine ⟨_, hn2, l4 ++ l3, vals l1, vals l3, hdel, ?_,
        by rw [e, vals_append, vals_cons, hcv], by rw [vals_append, hvl], hlt1, hgt, rfl,
        by simp, d.1, c2.1, d.2, c2.2, l3, hab, hdm, hc2, hnext, hcv, rfl, hl3, rfl, hpost⟩
      constructor
      · exact inv.head_eq
      · show IsSeg _ (some h) ((h, hn2) :: _) none
        rw [← hre]
        exact chain_delete s.mem h pre l3 d c2 hch2 hnd
      · rw [← hre]
        simp only [List.map_append, List.map_cons] at hnd ⊢
        have hsub : (List.map Prod.fst pre ++ d.1 :: List.map Prod.fst l3).Sublist
            (List.map Prod.fst pre ++ d.1 :: c2.1 :: List.map Prod.fst l3) :=
          List.Sublist.append_left
            (List.Sublist.cons₂ _ (List.sublist_cons_self _ _)) _
        exact hnd.sublist hsub
      · rw [vals_append, hvl]
        refine List.pairwise_append.2 ⟨(List.pairwise_append.1 hsorted).1,
          (List.pairwise_cons.1 (List.pairwise_append.1 hsorted).2.1).2, ?_⟩
        intro x hx y hy
        exact (List.pairwise_append.1 hsorted).2.2 x hx y (by simp [vals_cons, hy])
      · rw [← hre]
        intro c hc
        rcases List.mem_append.1 hc with hc | hc
        · exact hlive c (by simp [hc])
        · rcases List.mem_cons.1 hc with rfl | hc
          · exact hdlive
          · exact hlive c (by simp [hc])
      · intro n hmem
        rcases List.mem_or_eq_of_mem_set hmem with hmem | rfl
        · rcases List.mem_or_eq_of_mem_set hmem with hmem | rfl
          · exact inv.free n hmem
          · exact hcfree
        · exact hdfree
      · have := inv.room
        simp only [List.length_append, List.length_cons, List.length_set, hlen4, e] at this ⊢
        omega
      · show wrapInt32 (s.len + (-1)) = _
        rw [inv.len_eq, wrapInt32_add]
        simp only [List.length_append, List.length_cons, hlen4, e]
        push_cast
        congr 1
        omega
      · rw [hsv]; exact inv.sentinel
  · left
    have hgt : ∀ x ∈ vals l2, v < x := by
      cases l2 with
      | nil => simp [vals]
      | cons c2 l3 =>
        have h1 : v ≤ c2.2.value := p2 c2 (by simp)
        have h2 : c2.2.value ≠ v := fun hh => hpres ⟨c2, by simp, hh⟩
        have h3 : ∀ y ∈ vals l3, c2.2.value < y :=
          (List.pairwise_cons.1 (List.pairwise_append.1 hsorted).2.1).1
        intro x hx
        rw [vals_cons] at hx
        rcases List.mem_cons.1 hx with rfl | hx
        · omega
        · have := h3 x hx; omega
    have hnot : v ∉ vals cells := by
      rw [e, vals_append, List.mem_append]
      rintro (hx | hx)
      · have := hlt1 v hx; omega
      · have := hgt v hx; omega
    refine ⟨hnot, ?_⟩
    have hval : valueIsNot s.mem (l2.head?.map Prod.fst) v = some true := by
      cases l2 with
      | nil => rfl
      | cons c2 l3 =>
        have h2 : c2.2.value ≠ v := fun hh => hpres ⟨c2, by simp, hh⟩
        simp only [List.head?_cons, Option.map_some', valueIsNot]
        simp only [show s.mem[c2.1]? = some c2.2 from hl2.2.1]
        simp [h2]
    simp only [deleteLoop, hfind, hval]

theorem delete_spec (s : IntList) (h : Nat) (hn : Node) (cells : List Cell) (v : Int)
    (fuel : Nat) (inv : Inv s h hn cells) (hf : cells.length < fuel) :
    (v ∉ vals cells ∧ Delete fuel s v = some (false, s)) ∨
    (v ∈ vals cells ∧ ∃ s2 hn2 cells2 l1 l2, Delete fuel s v = some (true, s2) ∧
      Inv s2 h hn2 cells2 ∧ vals cells = l1 ++ v :: l2 ∧ vals cells2 = l1 ++ l2 ∧
      (∀ x ∈ l1, x < v) ∧ (∀ x ∈ l2, v < x) ∧
      s2.len = wrapInt32 (s.len + (-1)) ∧ s2.mem.length = s.mem.length) := by
  cases fuel with
  | zero => simp at hf
  | succ k =>
    rcases deleteLoop_spec s h hn cells v (k + 1) k inv hf with h1 | ⟨h1, s2, hn2, cells2, l1, l2,
      h2, h3, h4, h5, h6, h7, h8, h9, _⟩
    · exact Or.inl h1
    · exact Or.inr ⟨h1, s2, hn2, cells2, l1, l2, h2, h3, h4, h5, h6, h7, h8, h9⟩

/-! ## Fuel, reachable states and the read-only methods -/
theorem findLoop_mono (mem : Heap) (v : Int) : ∀ (f f2 : Nat) (a : Nat) (p : Option Nat)
    (r : Nat × Option Nat), f ≤ f2 → findLoop mem v f a p = some r →
    findLoop mem v f2 a p = some r := by
  intro f
  induction f with
  | zero => intro f2 a p r _ h; simp [findLoop] at h
  | succ k ih =>
    intro f2 a p r hle h
    cases f2 with
    | zero => omega
    | succ k2 =>
      cases p with
      | none => simpa [findLoop] using h
      | some b =>
        simp only [findLoop] at h ⊢
        cases hb : mem[b]? with
        | none => simp [hb] at h
        | some nb =>
          simp only [hb] at h ⊢
          by_cases hlt : nb.value < v
          · simp only [hlt, if_true] at h ⊢
            cases hl : loadNext mem b with
            | none => simp [hl] at h
            | some b2 =>
              simp only [hl] at h ⊢
              exact ih k2 b b2 r (by omega) h
          · simpa [hlt] using h

theorem findPositions_mono (f f2 : Nat) (s : IntList) (v : Int) (r : Nat × Option Nat)
    (hle : f ≤ f2) (h : findPositions f s v = some r) : findPositions f2 s v = some r := by
  simp only [findPositions] at h ⊢
  split at h
  · exact h
  · split at h
    · exact h
    · exact findLoop_mono _ _ _ _ _ _ _ hle h

theorem insertLoop_mono (tf tf2 : Nat) (v : Int) (htf : tf ≤ tf2) : ∀ (f f2 : Nat) (s : IntList)
    (r : Bool × IntList), f ≤ f2 → insertLoop tf v f s = some r →
    insertLoop tf2 v f2 s = some r := by
  intro f
  induction f with
  | zero => intro f2 s r _ h; simp [insertLoop] at h
  | succ k ih =>
    intro f2 s r hle h
    cases f2 with
    | zero => omega
    | succ k2 =>
      have hk : k ≤ k2 := by omega
      simp only [insertLoop] at h ⊢
      cases hfp : findPositions tf s v with
      | none => simp [hfp] at h
      | some ab =>
        obtain ⟨a, b⟩ := ab
        simp only [hfp] at h
        simp only [findPositions_mono tf tf2 s v (a, b) htf hfp]
        repeat' split at h
        all_goals first
          | contradiction
          | exact ih _ _ _ hk h
          | exact h
          | (simp only [*]; done)
          | (simp only [*, ne_eq, not_true_eq_false, not_false_eq_true, if_true, if_false]; done)
          | (simp only [*, ne_eq, not_true_eq_false, not_false_eq_true, if_true, if_false]
             exact ih _ _ _ hk h)

theorem deleteLoop_mono (tf tf2 : Nat) (v : Int) (htf : tf ≤ tf2) : ∀ (f f2 : Nat) (s : IntList)
    (r : Bool × IntList), f ≤ f2 → deleteLoop tf v f s = some r →
    deleteLoop tf2 v f2 s = some r := by
  intro f
  induction f with
  | zero => intro f2 s r _ h; simp [deleteLoop] at h
  | succ k ih =>
    intro f2 s r hle h
    cases f2 with
    | zero => omega
    | succ k2 =>
      have hk : k ≤ k2 := by omega
      simp only [deleteLoop] at h ⊢
      cases hfp : findPositions tf s v with
      | none => simp [hfp] at h
      | some ab =>
        obtain ⟨a, b⟩ := ab
        simp only [hfp] at h
        simp only [findPositions_mono tf tf2 s v (a, b) htf hfp]
        repeat' split at h
        all_goals first
          | contradiction
          | exact ih _ _ _ hk h
          | exact h

theorem Insert_mono (f f2 : Nat) (s : IntList) (v : Int) (r : Bool × IntList) (hle : f ≤ f2)
    (h : Insert f s v = some r) : Insert f2 s v = some r :=
  insertLoop_mono f f2 v hle f f2 s r hle h

theorem Delete_mono (f f2 : Nat) (s : IntList) (v : Int) (r : Bool × IntList) (hle : f ≤ f2)
    (h : Delete f s v = some r) : Delete f2 s v = some r :=
  deleteLoop_mono f f2 v hle f f2 s r hle h

theorem inv_newInt : Inv NewInt 0 ⟨-1, 0, none, false⟩ [] := by
  constructor
  · rfl
  · exact ⟨rfl, rfl, rfl⟩
  · simp
  · simp [vals]
  · intro c hc
    simp only [List.mem_singleton] at hc
    subst hc; rfl
  · intro n hn
    simp only [NewInt, newNode, List.nil_append, List.mem_singleton] at hn
    subst hn; rfl
  · simp [NewInt, newNode]
  · rfl
  · rfl

theorem reachable_inv (s : IntList) (hs : Reachable s) : ∃ h hn cells, Inv s h hn cells := by
  induction hs with
  | newInt => exact ⟨_, _, _, inv_newInt⟩
  | @insert i i2 r fuel v _ hins ih =>
    obtain ⟨h, hn, cells, inv⟩ := ih
    have hbig := Insert_mono fuel (max fuel (cells.length + 1)) i v _ (le_max_left _ _) hins
    rcases insert_spec i h hn cells v _ inv (lt_of_lt_of_le (Nat.lt_succ_self _)
      (le_max_right fuel _)) with ⟨_, h1⟩ | ⟨_, s2, hn2, cells2, _, _, h1, inv2, _⟩
    · rw [h1] at hbig
      simp only [Option.some.injEq, Prod.mk.injEq] at hbig
      rw [← hbig.2]; exact ⟨h, hn, cells, inv⟩
    · rw [h1] at hbig
      simp only [Option.some.injEq, Prod.mk.injEq] at hbig
      rw [← hbig.2]; exact ⟨h, hn2, cells2, inv2⟩
  | @delete i i2 r fuel v _ hdel ih =>
    obtain ⟨h, hn, cells, inv⟩ := ih
    have hbig := Delete_mono fuel (max fuel (cells.length + 1)) i v _ (le_max_left _ _) hdel
    rcases delete_spec i h hn cells v _ inv (lt_of_lt_of_le (Nat.lt_succ_self _)
      (le_max_right fuel _)) with ⟨_, h1⟩ | ⟨_, s2, hn2, cells2, _, _, h1, inv2, _⟩
    · rw [h1] at hbig
      simp only [Option.some.injEq, Prod.mk.injEq] at hbig
      rw [← hbig.2]; exact ⟨h, hn, cells, inv⟩
    · rw [h1] at hbig
      simp only [Option.some.injEq, Prod.mk.injEq] at hbig
      rw [← hbig.2]; exact ⟨h, hn2, cells2, inv2⟩

theorem inv_fuel (s : IntList) (h : Nat) (hn : Node) (cells : List Cell) (fuel : Nat)
    (inv : Inv s h hn cells) (hf : s.mem.length ≤ fuel) : cells.length < fuel :=
  lt_of_lt_of_le (Nat.lt_of_succ_le inv.room) hf

theorem range_spec {σ : Type} (s : IntList) (h : Nat) (hn : Node) (cells : List Cell)
    (fuel : Nat) (inv : Inv s h hn cells) (hf : cells.length < fuel)
    (f : σ → Int → Bool × σ) (st : σ) :
    Range fuel s f st = some (visit f st (vals cells)) := by
  obtain ⟨_, hhn, hch⟩ := inv.chain
  simp only [Range, inv.head_eq, loadNext]
  simp only [show s.mem[h]? = some hn from hhn]
  exact rangeLoop_spec s.mem f cells fuel hn.next st hch hf

theorem visit_collect : ∀ (l acc : List Int), visit collect acc l = acc ++ l := by
  intro l
  induction l with
  | nil => intro acc; simp [visit]
  | cons v l ih => intro acc; simp [visit, collect, ih]

theorem rangeAll_spec (s : IntList) (h : Nat) (hn : Node) (cells : List Cell)
    (fuel : Nat) (inv : Inv s h hn cells) (hf : cells.length < fuel) :
    rangeAll fuel s = some (vals cells) := by
  rw [rangeAll, range_spec s h hn cells fuel inv hf, visit_collect]; rfl

theorem contains_spec (s : IntList) (h : Nat) (hn : Node) (cells : List Cell)
    (fuel : Nat) (inv : Inv s h hn cells) (hf : cells.length < fuel) (v : Int) :
    Contains fuel s v = some (decide (v ∈ vals cells)) := by
  obtain ⟨_, hhn, hch⟩ := inv.chain
  simp only [Contains, inv.head_eq, loadNext]
  simp only [show s.mem[h]? = some hn from hhn]
  exact containsLoop_spec s.mem v cells fuel hn.next hch hf inv.sorted
    (fun c hc => inv.live c (List.mem_cons_of_mem _ hc))

theorem runOps_reachable (fuel : Nat) : ∀ (ops : List Op) (s : IntList) (rs : List Bool)
    (s2 : IntList), Reachable s → runOps fuel ops s = some (rs, s2) → Reachable s2 := by
  intro ops
  induction ops with
  | nil =>
    intro s rs s2 hs h
    simp only [runOps, Option.some.injEq, Prod.mk.injEq] at h
    rw [← h.2]; exact hs
  | cons op ops ih =>
    intro s rs s2 hs h
    simp only [runOps] at h
    cases hop : op.run fuel s with
    | none => simp [hop] at h
    | some r1 =>
      obtain ⟨r, i2⟩ := r1
      simp only [hop] at h
      cases hrest : runOps fuel ops i2 with
      | none => simp [hrest] at h
      | some r2 =>
        obtain ⟨rs2, i3⟩ := r2
        simp only [hrest, Option.some.injEq, Prod.mk.injEq] at h
        rw [← h.2]
        refine ih i2 rs2 i3 ?_ hrest
        cases op with
        | insert v => exact Reachable.insert fuel v hs hop
        | delete v => exact Reachable.delete fuel v hs hop

/-! ## Sequences of calls and the first claims -/
theorem op_spec (s : IntList) (h : Nat) (hn : Node) (cells : List Cell) (op : Op)
    (fuel : Nat) (inv : Inv s h hn cells) (hf : cells.length < fuel) :
    ∃ r s2 hn2 cells2, op.run fuel s = some (r, s2) ∧ Inv s2 h hn2 cells2 ∧
      s2.mem.length ≤ s.mem.length + 1 := by
  cases op with
  | insert v =>
    rcases insert_spec s h hn cells v fuel inv hf with
      ⟨_, h1⟩ | ⟨_, s2, hn2, cells2, _, _, h1, inv2, _, _, _, _, _, hl⟩
    · exact ⟨false, s, hn, cells, h1, inv, Nat.le_succ _⟩
    · exact ⟨true, s2, hn2, cells2, h1, inv2, le_of_eq hl⟩
  | delete v =>
    rcases delete_spec s h hn cells v fuel inv hf with
      ⟨_, h1⟩ | ⟨_, s2, hn2, cells2, _, _, h1, inv2, _, _, _, _, _, hl⟩
    · exact ⟨false, s, hn, cells, h1, inv, Nat.le_succ _⟩
    · exact ⟨true, s2, hn2, cells2, h1, inv2, by omega⟩

theorem runOps_total (fuel : Nat) : ∀ (ops : List Op) (s : IntList) (h : Nat) (hn : Node)
    (cells : List Cell), Inv s h hn cells → s.mem.length + ops.length ≤ fuel →
    ∃ rs s2 hn2 cells2, runOps fuel ops s = some (rs, s2) ∧ Inv s2 h hn2 cells2 ∧
      s2.mem.length ≤ s.mem.length + ops.length ∧ rs.length = ops.length := by
  intro ops
  induction ops with
  | nil =>
    intro s h hn cells inv _
    exact ⟨[], s, hn, cells, rfl, inv, le_refl _, rfl⟩
  | cons op ops ih =>
    intro s h hn cells inv hf
    simp only [List.length_cons] at hf
    obtain ⟨r, s1, hn1, cells1, h1, inv1, hl1⟩ :=
      op_spec s h hn cells op fuel inv (inv_fuel s h hn cells fuel inv (by omega))
    obtain ⟨rs, s2, hn2, cells2, h2, inv2, hl2, hr2⟩ := ih s1 h hn1 cells1 inv1 (by omega)
    refine ⟨r :: rs, s2, hn2, cells2, ?_, inv2, ?_, by simp [hr2]⟩
    · simp only [runOps, h1, h2]
    · simp only [List.length_cons]; omega

/-- C1: every finite sequence of Insert and Delete calls on the result of NewInt
runs to completion, and on the set it leaves Range passes a strictly ascending
sequence of values, free of duplicates, to an always-true visitor. -/
theorem C1_range_strictly_ascending (ops : List Op) (fuel : Nat) (hf : ops.length < fuel) :
    ∃ rs s out, runOps fuel ops NewInt = some (rs, s) ∧ rangeAll fuel s = some out ∧
      out.Sorted (fun x y => x < y) ∧ out.Nodup := by
  obtain ⟨rs, s, hn, cells, h1, inv, hl, _⟩ :=
    runOps_total fuel ops NewInt 0 _ [] inv_newInt (by simp [NewInt, newNode]; omega)
  have hfuel : cells.length < fuel := by
    refine inv_fuel s 0 hn cells fuel inv ?_
    simp [NewInt, newNode] at hl; omega
  refine ⟨rs, s, vals cells, h1, rangeAll_spec s 0 hn cells fuel inv hfuel, inv.sorted, ?_⟩
  exact inv.sorted.imp (fun hxy => ne_of_lt hxy)

/-- C1 at a run of five calls. -/
theorem C1_witness :
    [Op.insert 5, Op.insert 3, Op.delete 5, Op.insert 8, Op.insert 3].length < 6 ∧
    ∃ rs s out, runOps 6 [Op.insert 5, Op.insert 3, Op.delete 5, Op.insert 8, Op.insert 3]
        NewInt = some (rs, s) ∧ rangeAll 6 s = some out ∧
      out.Sorted (fun x y => x < y) ∧ out.Nodup :=
  ⟨by decide, C1_range_strictly_ascending
    [Op.insert 5, Op.insert 3, Op.delete 5, Op.insert 8, Op.insert 3] 6 (by decide)⟩

/-- C2: in every state reached from NewInt by Insert and Delete calls, Contains
of a value answers true exactly when the value is among those Range passes to an
always-true visitor. -/
theorem C2_contains_iff_ranged (s : IntList) (hs : Reachable s) (v : Int) (fuel : Nat)
    (hf : s.mem.length ≤ fuel) :
    ∃ out b, rangeAll fuel s = some out ∧ Contains fuel s v = some b ∧
      (b = true ↔ v ∈ out) := by
  obtain ⟨h, hn, cells, inv⟩ := reachable_inv s hs
  have hfuel := inv_fuel s h hn cells fuel inv hf
  exact ⟨vals cells, decide (v ∈ vals cells), rangeAll_spec s h hn cells fuel inv hfuel,
    contains_spec s h hn cells fuel inv hfuel v, by simp⟩

/-- The sample state is what three inserts leave, so it is reachable. -/
theorem sample_reachable : Reachable sample :=
  runOps_reachable 4 [Op.insert 5, Op.insert 3, Op.insert 8] NewInt [true, true, true] sample
    Reachable.newInt (by decide)

/-- C2 at the sample state and the value 8. -/
theorem C2_witness :
    Reachable sample ∧ sample.mem.length ≤ 4 ∧
    ∃ out b, rangeAll 4 sample = some out ∧ Contains 4 sample 8 = some b ∧
      (b = true ↔ (8 : Int) ∈ out) :=
  ⟨sample_reachable, by decide, C2_contains_iff_ranged sample sample_reachable 8 4 (by decide)⟩

/-- C3: in every reachable state Insert of a value completes, returns true
exactly when Contains of that value was false just before, and when it returns
false it leaves the state as it was, so Range output and Len are unchanged. -/
theorem C3_insert_result (s : IntList) (hs : Reachable s) (v : Int) (fuel : Nat)
    (hf : s.mem.length ≤ fuel) :
    ∃ c r s2, Contains fuel s v = some c ∧ Insert fuel s v = some (r, s2) ∧
      (r = true ↔ c = false) ∧
      (r = false → s2 = s ∧ rangeAll fuel s2 = rangeAll fuel s ∧ Len s2 = Len s) := by
  obtain ⟨h, hn, cells, inv⟩ := reachable_inv s hs
  have hfuel := inv_fuel s h hn cells fuel inv hf
  have hc := contains_spec s h hn cells fuel inv hfuel v
  rcases insert_spec s h hn cells v fuel inv hfuel with
    ⟨hin, h1⟩ | ⟨hout, s2, hn2, cells2, _, _, h1, _⟩
  · exact ⟨_, false, s, hc, h1, by simp [hin], fun _ => ⟨rfl, rfl, rfl⟩⟩
  · exact ⟨_, true, s2, hc, h1, by simp [hout], fun hh => by simp at hh⟩

/-- C3 at the sample state and the value 5, which is present. -/
theorem C3_witness :
    Reachable sample ∧ sample.mem.length ≤ 4 ∧
    ∃ c r s2, Contains 4 sample 5 = some c ∧ Insert 4 sample 5 = some (r, s2) ∧
      (r = true ↔ c = false) ∧
      (r = false → s2 = sample ∧ rangeAll 4 s2 = rangeAll 4 sample ∧ Len s2 = Len sample) :=
  ⟨sample_reachable, by decide, C3_insert_result sample sample_reachable 5 4 (by decide)⟩

/-- C5: in every reachable state Delete of a value completes, returns true
exactly when Contains of that value was true just before, and when it returns
false it leaves the state as it was, so Range output and Len are unchanged. -/
theorem C5_delete_result (s : IntList) (hs : Reachable s) (v : Int) (fuel : Nat)
    (hf : s.mem.length ≤ fuel) :
    ∃ c r s2, Contains fuel s v = some c ∧ Delete fuel s v = some (r, s2) ∧
      (r = true ↔ c = true) ∧
      (r = false → s2 = s ∧ rangeAll fuel s2 = rangeAll fuel s ∧ Len s2 = Len s) := by
  obtain ⟨h, hn, cells, inv⟩ := reachable_inv s hs
  have hfuel := inv_fuel s h hn cells fuel inv hf
  have hc := contains_spec s h hn cells fuel inv hfuel v
  rcases delete_spec s h hn cells v fuel inv hfuel with
    ⟨hout, h1⟩ | ⟨hin, s2, hn2, cells2, _, _, h1, _⟩
  · exact ⟨_, false, s, hc, h1, by simp [hout], fun _ => ⟨rfl, rfl, rfl⟩⟩
  · exact ⟨_, true, s2, hc, h1, by simp [hin], fun hh => by simp at hh⟩

/-- C5 at the sample state and the value 7, which is absent. -/
theorem C5_witness :
    Reachable sample ∧ sample.mem.length ≤ 4 ∧
    ∃ c r s2, Contains 4 sample 7 = some c ∧ Delete 4 sample 7 = some (r, s2) ∧
      (r = true ↔ c = true) ∧
      (r = false → s2 = sample ∧ rangeAll 4 s2 = rangeAll 4 sample ∧ Len s2 = Len sample) :=
  ⟨sample_reachable, by decide, C5_delete_result sample sample_reachable 7 4 (by decide)⟩

/-! ## Set semantics of a run of calls -/
theorem runOps_mono (f f2 : Nat) (hle : f ≤ f2) : ∀ (ops : List Op) (s : IntList)
    (r : List Bool × IntList), runOps f ops s = some r → runOps f2 ops s = some r := by
  intro ops
  induction ops with
  | nil => intro s r h; exact h
  | cons op ops ih =>
    intro s r h
    simp only [runOps] at h ⊢
    cases hop : op.run f s with
    | none => simp [hop] at h
    | some r1 =>
      obtain ⟨b, i2⟩ := r1
      have hop2 : op.run f2 s = some (b, i2) := by
        cases op with
        | insert v => exact Insert_mono f f2 s v _ hle hop
        | delete v => exact Delete_mono f f2 s v _ hle hop
      simp only [hop] at h
      simp only [hop2]
      cases hrest : runOps f ops i2 with
      | none => simp [hrest] at h
      | some r2 =>
        simp only [ih i2 r2 hrest]
        simpa [hrest] using h

theorem inv_vals_unique (s : IntList) (h h2 : Nat) (hn hn2 : Node) (cells cells2 : List Cell)
    (inv : Inv s h hn cells) (inv2 : Inv s h2 hn2 cells2) : vals cells = vals cells2 := by
  have h1 := rangeAll_spec s h hn cells s.mem.length inv (inv_fuel s h hn cells _ inv (le_refl _))
  have h2 := rangeAll_spec s h2 hn2 cells2 s.mem.length inv2
    (inv_fuel s h2 hn2 cells2 _ inv2 (le_refl _))
  rw [h1] at h2
  exact Option.some.inj h2

/-- Set semantics of one call on the values of the chain. -/
theorem op_vals (s : IntList) (h : Nat) (hn : Node) (cells : List Cell) (op : Op)
    (fuel : Nat) (inv : Inv s h hn cells) (hf : cells.length < fuel) (r : Bool) (s1 : IntList)
    (hrun : op.run fuel s = some (r, s1)) :
    ∃ hn1 cells1, Inv s1 h hn1 cells1 ∧ s1.mem.length ≤ s.mem.length + 1 ∧
      (∀ w, op = Op.insert w → ∀ x, x ∈ vals cells1 ↔ (x = w ∨ x ∈ vals cells)) ∧
      (∀ w, op = Op.delete w → ∀ x, x ∈ vals cells1 ↔ (x ≠ w ∧ x ∈ vals cells)) := by
  cases op with
  | insert w =>
    rcases insert_spec s h hn cells w fuel inv hf with
      ⟨hin, h1⟩ | ⟨_, s2, hn2, cells2, l1, l2, h1, inv2, e1, e2, _, _, _, hl⟩
    · have heq := hrun.symm.trans h1
      simp only [Option.some.injEq, Prod.mk.injEq] at heq
      rw [heq.2]
      refine ⟨hn, cells, inv, Nat.le_succ _, ?_, fun w2 hw2 => by cases hw2⟩
      intro w2 hw2 x
      cases hw2
      constructor
      · exact fun hx => Or.inr hx
      · rintro (rfl | hx)
        · exact hin
        · exact hx
    · have heq := hrun.symm.trans h1
      simp only [Option.some.injEq, Prod.mk.injEq] at heq
      rw [heq.2]
      refine ⟨hn2, cells2, inv2, le_of_eq hl, ?_, fun w2 hw2 => by cases hw2⟩
      intro w2 hw2 x
      cases hw2
      rw [e1, e2]
      simp only [List.mem_append, List.mem_cons]
      tauto
  | delete w =>
    rcases delete_spec s h hn cells w fuel inv hf with
      ⟨hout, h1⟩ | ⟨_, s2, hn2, cells2, l1, l2, h1, inv2, e1, e2, p1, p2, _, hl⟩
    · have heq := hrun.symm.trans h1
      simp only [Option.some.injEq, Prod.mk.injEq] at heq
      rw [heq.2]
      refine ⟨hn, cells, inv, Nat.le_succ _, (fun w2 hw2 => by cases hw2), ?_⟩
      intro w2 hw2 x
      cases hw2
      constructor
      · intro hx
        exact ⟨fun hxw => hout (hxw ▸ hx), hx⟩
      · exact fun hx => hx.2
    · have heq := hrun.symm.trans h1
      simp only [Option.some.injEq, Prod.mk.injEq] at heq
      rw [heq.2]
      refine ⟨hn2, cells2, inv2, by omega, (fun w2 hw2 => by cases hw2), ?_⟩
      intro w2 hw2 x
      cases hw2
      rw [e1, e2]
      simp only [List.mem_append, List.mem_cons]
      constructor
      · rintro (hx | hx)
        · exact ⟨by have := p1 x hx; omega, Or.inl hx⟩
        · exact ⟨by have := p2 x hx; omega, Or.inr (Or.inr hx)⟩
      · rintro ⟨hne, hx | hx | hx⟩
        · exact Or.inl hx
        · exact absurd hx hne
        · exact Or.inr hx

/-- A value found in the chain after a run of calls was put there by an Insert
that no later Delete of the same value follows, or was there from the start. -/
theorem mem_after_ops (fuel : Nat) (v : Int) : ∀ (ops : List Op) (s : IntList) (h : Nat)
    (hn : Node) (cells : List Cell), Inv s h hn cells → s.mem.length + ops.length ≤ fuel →
    ∀ (rs : List Bool) (s2 : IntList) (hn2 : Node) (cells2 : List Cell),
    runOps fuel ops s = some (rs, s2) → Inv s2 h hn2 cells2 → v ∈ vals cells2 →
    (∃ pre post, ops = pre ++ Op.insert v :: post ∧ Op.delete v ∉ post) ∨
      (v ∈ vals cells ∧ Op.delete v ∉ ops) := by
  intro ops
  induction ops with
  | nil =>
    intro s h hn cells inv _ rs s2 hn2 cells2 hrun inv2 hv
    simp only [runOps, Option.some.injEq, Prod.mk.injEq] at hrun
    have := hrun.2
    subst this
    right
    rw [inv_vals_unique s h h hn hn2 cells cells2 inv inv2]
    exact ⟨hv, by simp⟩
  | cons op ops ih =>
    intro s h hn cells inv hf rs s2 hn2 cells2 hrun inv2 hv
    simp only [List.length_cons] at hf
    simp only [runOps] at hrun
    cases hop : op.run fuel s with
    | none => simp [hop] at hrun
    | some r1 =>
      obtain ⟨b, s1⟩ := r1
      simp only [hop] at hrun
      cases hrest : runOps fuel ops s1 with
      | none => simp [hrest] at hrun
      | some r2 =>
        obtain ⟨rs2, s3⟩ := r2
        simp only [hrest, Option.some.injEq, Prod.mk.injEq] at hrun
        have := hrun.2
        subst this
        obtain ⟨hn1, cells1, inv1, hl1, hmi, hmd⟩ := op_vals s h hn cells op fuel inv
          (inv_fuel s h hn cells fuel inv (by omega)) b s1 hop
        rcases ih s1 h hn1 cells1 inv1 (by omega) rs2 s3 hn2 cells2 hrest inv2 hv with
          ⟨pre, post, e, hp⟩ | ⟨hv1, hnd⟩
        · exact Or.inl ⟨op :: pre, post, by rw [e]; rfl, hp⟩
        · cases op with
          | insert w =>
            by_cases hw : w = v
            · subst hw
              exact Or.inl ⟨[], ops, rfl, hnd⟩
            · right
              rcases (hmi w rfl v).1 hv1 with hx | hx
              · exact absurd hx.symm hw
              · exact ⟨hx, by simp [hnd]⟩
          | delete w =>
            have hx := (hmd w rfl v).1 hv1
            right
            refine ⟨hx.2, ?_⟩
            simp only [List.mem_cons, Op.delete.injEq, not_or]
            exact ⟨hx.1, hnd⟩

/-! ## The empty set, the sentinel and the order of visits -/
/-- C9: on the result of NewInt, Len is 0, Range leaves every visitor untouched
(it is never called), and Contains is false for every value, the head value
included; after any run of calls the head still holds the value -1, and that
value is reported by Contains or Range only when the run has an Insert of -1 with
no Delete of -1 after it. -/
theorem C9_empty_and_sentinel :
    Len NewInt = 0 ∧
    (∀ (fuel : Nat) (σ : Type) (f : σ → Int → Bool × σ) (st : σ),
      Range (fuel + 1) NewInt f st = some st) ∧
    (∀ fuel : Nat, rangeAll (fuel + 1) NewInt = some []) ∧
    (∀ (fuel : Nat) (v : Int), Contains (fuel + 1) NewInt v = some false) ∧
    (∀ (ops : List Op) (fuel fuel2 : Nat) (rs : List Bool) (s : IntList),
      runOps fuel ops NewInt = some (rs, s) → s.mem.length ≤ fuel2 →
      (∃ h hn, s.head = some h ∧ s.mem[h]? = some hn ∧ hn.value = -1) ∧
      ((Contains fuel2 s (-1) = some true ∨ ∃ out, rangeAll fuel2 s = some out ∧ -1 ∈ out) →
        ∃ pre post, ops = pre ++ Op.insert (-1) :: post ∧ Op.delete (-1) ∉ post)) := by
  refine ⟨rfl, fun fuel σ f st => rfl, fun fuel => rfl, fun fuel v => rfl, ?_⟩
  intro ops fuel fuel2 rs s hrun hf
  have hbig := runOps_mono fuel (max fuel (1 + ops.length)) (le_max_left _ _) ops NewInt _ hrun
  obtain ⟨rs2, s2, hn2, cells2, h2, inv2, _, _⟩ :=
    runOps_total (max fuel (1 + ops.length)) ops NewInt 0 _ [] inv_newInt
      (by simp [NewInt, newNode])
  have heq := hbig.symm.trans h2
  simp only [Option.some.injEq, Prod.mk.injEq] at heq
  have := heq.2
  subst this
  have hfuel := inv_fuel s 0 hn2 cells2 fuel2 inv2 hf
  refine ⟨⟨0, hn2, inv2.head_eq, inv2.chain.2.1, inv2.sentinel⟩, fun hrep => ?_⟩
  have hv : (-1 : Int) ∈ vals cells2 := by
    rcases hrep with hc | ⟨out, ho, hm⟩
    · rw [contains_spec s 0 hn2 cells2 fuel2 inv2 hfuel] at hc
      simpa using hc
    · rw [rangeAll_spec s 0 hn2 cells2 fuel2 inv2 hfuel] at ho
      rw [Option.some.inj ho]; exact hm
  rcases mem_after_ops _ (-1) ops NewInt 0 _ [] inv_newInt (by simp [NewInt, newNode])
    rs s hn2 cells2 hbig inv2 hv with h3 | ⟨h3, _⟩
  · exact h3
  · simp [vals] at h3

/-- C9 at a run that inserts the head value -1 itself: the state it leaves
reports -1, and the run has the Insert the claim asks for. -/
theorem C9_witness :
    ∃ pre post, [Op.insert 4, Op.insert (-1), Op.delete 4] = pre ++ Op.insert (-1) :: post ∧
      Op.delete (-1) ∉ post :=
  (C9_empty_and_sentinel.2.2.2.2 [Op.insert 4, Op.insert (-1), Op.delete 4] 4 3
    [true, true, true]
    { mem := [{ value := -1, marked := 0, next := some 2, mu := false },
              { value := 4, marked := 1, next := none, mu := false },
              { value := -1, marked := 0, next := none, mu := false }],
      head := some 0, len := 1 }
    (by decide) (by decide)).2 (Or.inl (by decide))

theorem visit_logged {σ : Type} (f : σ → Int → Bool × σ) :
    ∀ (es : List Int) (st : σ) (log0 : List (Int × Bool)),
    ∃ tr, visit (logged f) (st, log0) es = (visit f st es, log0 ++ tr) ∧
      tr.map Prod.fst = es.take tr.length ∧ tr.length ≤ es.length ∧
      (∀ c ∈ tr.dropLast, c.2 = true) ∧
      (tr.length < es.length → ∃ e, tr.getLast? = some (e, false)) := by
  intro es
  induction es with
  | nil => intro st log0; exact ⟨[], by simp [visit], rfl, le_refl _, by simp, by simp⟩
  | cons v vs ih =>
    intro st log0
    rcases hfv : f st v with ⟨r, st1⟩
    cases r with
    | false =>
      refine ⟨[(v, false)], ?_, by simp, by simp, by simp, fun _ => ⟨v, rfl⟩⟩
      simp [visit, logged, hfv]
    | true =>
      obtain ⟨tr, h1, h2, h3, h4, h5⟩ := ih st1 (log0 ++ [(v, true)])
      refine ⟨(v, true) :: tr, ?_, by simp [h2], by simpa using h3, ?_, ?_⟩
      · simp [visit, logged, hfv, h1]
      · intro c hc
        cases tr with
        | nil => simp at hc
        | cons t tr2 =>
          simp only [List.dropLast_cons₂, List.mem_cons] at hc
          rcases hc with rfl | hc
          · rfl
          · exact h4 c hc
      · intro hlt
        obtain ⟨e, he⟩ := h5 (by simpa using hlt)
        cases tr with
        | nil => simp at he
        | cons t tr2 => exact ⟨e, by simpa [List.getLast?_cons_cons] using he⟩

theorem rangeLoopWith_spec {σ : Type} (s : IntList) (g : σ → IntList → Int → Bool × σ × IntList)
    (hpure : ∀ st i v, (g st i v).2.2 = i) :
    ∀ (l : List Cell) (fuel : Nat) (p : Option Nat) (st : σ),
    IsSeg s.mem p l none → l.length < fuel →
    rangeLoopWith g fuel s p st =
      some (visit (fun st v => ((g st s v).1, (g st s v).2.1)) st (vals l), s) := by
  intro l
  induction l with
  | nil =>
    intro fuel p st h hf
    cases fuel with
    | zero => simp at hf
    | succ k => rw [IsSeg_nil] at h; subst h; simp [rangeLoopWith, visit, vals]
  | cons c l ih =>
    intro fuel p st h hf
    obtain ⟨h1, h2, h3⟩ := h
    cases fuel with
    | zero => simp at hf
    | succ k =>
      subst h1
      have hk : l.length < k := by simpa using hf
      have hp := hpure st s c.2.value
      rcases hg : g st s c.2.value with ⟨r, st2, i2⟩
      rw [hg] at hp
      simp only at hp
      subst hp
      cases r with
      | false => simp [rangeLoopWith, h2, vals, visit, hg]
      | true =>
        have := ih k c.2.next st2 h3 hk
        simp [rangeLoopWith, h2, vals, visit, hg, loadNext] at this ⊢
        exact this

theorem rangeWith_spec {σ : Type} (s : IntList) (h : Nat) (hn : Node) (cells : List Cell)
    (fuel : Nat) (inv : Inv s h hn cells) (hf : cells.length < fuel)
    (g : σ → IntList → Int → Bool × σ × IntList) (hpure : ∀ st i v, (g st i v).2.2 = i)
    (st : σ) :
    RangeWith fuel s g st =
      some (visit (fun st v => ((g st s v).1, (g st s v).2.1)) st (vals cells), s) := by
  obtain ⟨_, hhn, hch⟩ := inv.chain
  simp only [RangeWith, inv.head_eq, loadNext]
  simp only [show s.mem[h]? = some hn from hhn]
  exact rangeLoopWith_spec s g hpure cells fuel hn.next st hch hf

/-- A visitor that leaves the set alone is served by `Range` and by `RangeWith`
alike. -/
theorem rangeLoopWith_pure {σ : Type} (f : σ → Int → Bool × σ) (i : IntList) :
    ∀ (fuel : Nat) (p : Option Nat) (st : σ),
    rangeLoopWith (fun st j v => ((f st v).1, (f st v).2, j)) fuel i p st =
      (rangeLoop i.mem f fuel p st).map (fun r => (r, i)) := by
  intro fuel
  induction fuel with
  | zero => intro p st; rfl
  | succ k ih =>
    intro p st
    cases p with
    | none => rfl
    | some x =>
      simp only [rangeLoopWith, rangeLoop]
      cases hx : i.mem[x]? with
      | none => rfl
      | some nx =>
        simp only []
        rcases hf : f st nx.value with ⟨r, st2⟩
        cases r with
        | false => simp
        | true =>
          simp only []
          cases hl : loadNext i.mem x with
          | none => rfl
          | some x2 => simpa using ih x2 st2

theorem rangeWith_pure {σ : Type} (f : σ → Int → Bool × σ) (i : IntList) (fuel : Nat) (st : σ) :
    RangeWith fuel i (fun st j v => ((f st v).1, (f st v).2, j)) st =
      (Range fuel i f st).map (fun r => (r, i)) := by
  simp only [RangeWith, Range]
  cases i.head with
  | none => rfl
  | some h =>
    simp only []
    cases loadNext i.mem h with
    | none => rfl
    | some x => exact rangeLoopWith_pure f i fuel x st

/-- C10 as stated fails: on the sample state, whose elements are 3, 5, 8, a
visitor that always answers true and calls Delete(5) while it is given 3 is
called on 3 and 8 only: the walk reads the successor of the node 3 after the
visitor has returned. -/
theorem C10_counterexample :
    rangeAll 4 sample = some [3, 5, 8] ∧ Contains 4 sample 5 = some true ∧
    (RangeWith 4 sample (loggedWith deleteFiveAtThree) ((), [])).map (fun r => r.1.2) =
      some [(3, true), (8, true)] ∧
    ¬ ∃ r, RangeWith 4 sample (loggedWith deleteFiveAtThree) ((), []) = some r ∧
      r.1.2.map Prod.fst = [3, 5, 8] := by
  refine ⟨by decide, by decide, by decide, ?_⟩
  rintro ⟨r, h1, h2⟩
  have h3 : (RangeWith 4 sample (loggedWith deleteFiveAtThree) ((), [])).map (fun r => r.1.2) =
      some [(3, true), (8, true)] := by decide
  rw [h1] at h3
  simp only [Option.map_some', Option.some.injEq] at h3
  rw [h3] at h2
  exact absurd h2 (by decide)

/-- C10 amended: in every reachable state the elements, pinned down as the
strictly ascending values for which Contains answers true, are what Range walks:
for every visitor that leaves the set as it is, Range completes, leaves the set
unchanged, and calls the visitor on a prefix of the elements, in order and each
once; every call but the last answered true, and the walk stops short of the end
only after a call that answered false. -/
theorem C10_range_order_early_stop (s : IntList) (hs : Reachable s) (fuel : Nat)
    (hf : s.mem.length ≤ fuel) {σ : Type} (g : σ → IntList → Int → Bool × σ × IntList)
    (hpure : ∀ st i v, (g st i v).2.2 = i) (st : σ) :
    ∃ es st2 log, es.Sorted (fun x y => x < y) ∧
      (∀ v, Contains fuel s v = some (decide (v ∈ es))) ∧ rangeAll fuel s = some es ∧
      RangeWith fuel s (loggedWith g) (st, []) = some ((st2, log), s) ∧
      RangeWith fuel s g st = some (st2, s) ∧
      log.map Prod.fst = es.take log.length ∧ log.length ≤ es.length ∧
      (log.map Prod.fst).Sorted (fun x y => x < y) ∧
      (∀ c ∈ log.dropLast, c.2 = true) ∧
      (log.length < es.length → ∃ e, log.getLast? = some (e, false)) := by
  obtain ⟨h, hn, cells, inv⟩ := reachable_inv s hs
  have hfuel := inv_fuel s h hn cells fuel inv hf
  have hpure2 : ∀ (p : σ × List (Int × Bool)) (i : IntList) (v : Int),
      (loggedWith g p i v).2.2 = i := fun p i v => hpure p.1 i v
  obtain ⟨tr, h1, h2, h3, h4, h5⟩ :=
    visit_logged (fun st v => ((g st s v).1, (g st s v).2.1)) (vals cells) st []
  refine ⟨vals cells, visit (fun st v => ((g st s v).1, (g st s v).2.1)) st (vals cells), tr,
    inv.sorted, contains_spec s h hn cells fuel inv hfuel,
    rangeAll_spec s h hn cells fuel inv hfuel, ?_,
    rangeWith_spec s h hn cells fuel inv hfuel g hpure st, h2, h3, ?_, h4, h5⟩
  · rw [rangeWith_spec s h hn cells fuel inv hfuel (loggedWith g) hpure2 (st, [])]
    have h6 : visit (fun (p : σ × List (Int × Bool)) v =>
        ((loggedWith g p s v).1, (loggedWith g p s v).2.1)) (st, []) (vals cells) =
        visit (logged (fun st v => ((g st s v).1, (g st s v).2.1))) (st, []) (vals cells) := rfl
    rw [h6, h1]
    simp
  · rw [h2]
    exact inv.sorted.sublist (List.take_sublist _ _)

/-- C10 amended, at the sample state with a visitor that counts its calls, leaves
the set alone and answers false from the value 5 on. -/
theorem C10_witness :
    Reachable sample ∧ sample.mem.length ≤ 4 ∧
    (∀ (n : Nat) (i : IntList) (v : Int), ((decide (v < 5), n + 1, i) : Bool × Nat × IntList).2.2 = i) ∧
    ∃ es st2 log, es.Sorted (fun x y => x < y) ∧
      (∀ v, Contains 4 sample v = some (decide (v ∈ es))) ∧ rangeAll 4 sample = some es ∧
      RangeWith 4 sample (loggedWith (fun (n : Nat) (i : IntList) (v : Int) =>
        (decide (v < 5), n + 1, i))) (0, []) = some ((st2, log), sample) ∧
      RangeWith 4 sample (fun (n : Nat) (i : IntList) (v : Int) =>
        (decide (v < 5), n + 1, i)) 0 = some (st2, sample) ∧
      log.map Prod.fst = es.take log.length ∧ log.length ≤ es.length ∧
      (log.map Prod.fst).Sorted (fun x y => x < y) ∧
      (∀ c ∈ log.dropLast, c.2 = true) ∧
      (log.length < es.length → ∃ e, log.getLast? = some (e, false)) :=
  ⟨sample_reachable, by decide, fun _ _ _ => rfl,
    C10_range_order_early_stop sample sample_reachable 4 (by decide)
      (fun (n : Nat) (i : IntList) (v : Int) => (decide (v < 5), n + 1, i))
      (fun _ _ _ => rfl) 0⟩

/-! ## The effect of a successful Insert or Delete -/
theorem wrapInt32_small (x : Int) (h1 : -2147483648 ≤ x) (h2 : x < 2147483648) :
    wrapInt32 x = x := by
  unfold wrapInt32; omega

theorem wrapInt32_range (x : Int) : -2147483648 ≤ wrapInt32 x ∧ wrapInt32 x < 2147483648 := by
  unfold wrapInt32; omega

/-- What a successful Insert does: the value appears at its sorted position in
the Range output, Contains finds it, and the counter is incremented in 32 bit
arithmetic. -/
theorem insert_effect (s : IntList) (hs : Reachable s) (v : Int) (fuel : Nat)
    (hf : s.mem.length ≤ fuel) (hc : Contains fuel s v = some false) :
    ∃ out s2, rangeAll fuel s = some out ∧ Insert fuel s v = some (true, s2) ∧
      Reachable s2 ∧ s2.mem.length = s.mem.length + 1 ∧
      rangeAll (fuel + 1) s2 = some (out.orderedInsert (fun x y => x ≤ y) v) ∧
      (∃ l1 l2, out = l1 ++ l2 ∧ (∀ x ∈ l1, x < v) ∧ (∀ x ∈ l2, v < x) ∧
        rangeAll (fuel + 1) s2 = some (l1 ++ v :: l2)) ∧
      Contains (fuel + 1) s2 v = some true ∧
      Len s2 = wrapInt32 (Len s + 1) ∧
      (Len s < 2147483647 → Len s2 = Len s + 1) := by
  obtain ⟨h, hn, cells, inv⟩ := reachable_inv s hs
  have hfuel := inv_fuel s h hn cells fuel inv hf
  rw [contains_spec s h hn cells fuel inv hfuel] at hc
  rcases insert_spec s h hn cells v fuel inv hfuel with
    ⟨hin, _⟩ | ⟨hout, s2, hn2, cells2, l1, l2, h1, inv2, e1, e2, p1, p2, hlen, hmem⟩
  · simp [hin] at hc
  · have hfuel2 : cells2.length < fuel + 1 :=
      inv_fuel s2 h hn2 cells2 (fuel + 1) inv2 (by omega)
    have hr2 := rangeAll_spec s2 h hn2 cells2 (fuel + 1) inv2 hfuel2
    have hord : List.orderedInsert (fun x y => x ≤ y) v (l1 ++ l2) = l1 ++ v :: l2 := by
      clear e1 e2
      induction l1 with
      | nil =>
        cases l2 with
        | nil => rfl
        | cons y l3 =>
          have := p2 y (by simp)
          simp [List.orderedInsert, le_of_lt this]
      | cons y l3 ih =>
        have hy := p1 y (by simp)
        have := ih (fun x hx => p1 x (by simp [hx]))
        simp [List.orderedInsert, not_le.2 hy, this]
    refine ⟨vals cells, s2, rangeAll_spec s h hn cells fuel inv hfuel, h1,
      Reachable.insert fuel v hs h1, hmem, ?_, ⟨l1, l2, e1, p1, p2, by rw [hr2, e2]⟩, ?_, hlen, ?_⟩
    · rw [hr2, e2, e1, hord]
    · rw [contains_spec s2 h hn2 cells2 (fuel + 1) inv2 hfuel2, e2]; simp
    · intro hlt
      have hr := wrapInt32_range cells.length
      have hl : s.len = wrapInt32 cells.length := inv.len_eq
      have hlt2 : s.len < 2147483647 := hlt
      show s2.len = s.len + 1
      rw [hlen]
      exact wrapInt32_small _ (by omega) (by omega)

/-- What a successful Delete does: the value leaves the Range output, the other
values keep their order, Contains no longer finds it, a second Delete returns
false, and the counter is decremented in 32 bit arithmetic. -/
theorem delete_effect (s : IntList) (hs : Reachable s) (v : Int) (fuel : Nat)
    (hf : s.mem.length ≤ fuel) (hc : Contains fuel s v = some true) :
    ∃ out s2, rangeAll fuel s = some out ∧ Delete fuel s v = some (true, s2) ∧
      Reachable s2 ∧ s2.mem.length = s.mem.length ∧
      rangeAll fuel s2 = some (out.erase v) ∧
      (∃ l1 l2, out = l1 ++ v :: l2 ∧ rangeAll fuel s2 = some (l1 ++ l2)) ∧
      Contains fuel s2 v = some false ∧
      Delete fuel s2 v = some (false, s2) ∧
      Len s2 = wrapInt32 (Len s + (-1)) ∧
      (-2147483648 < Len s → Len s2 = Len s - 1) := by
  obtain ⟨h, hn, cells, inv⟩ := reachable_inv s hs
  have hfuel := inv_fuel s h hn cells fuel inv hf
  rw [contains_spec s h hn cells fuel inv hfuel] at hc
  rcases delete_spec s h hn cells v fuel inv hfuel with
    ⟨hout, _⟩ | ⟨hin, s2, hn2, cells2, l1, l2, h1, inv2, e1, e2, p1, p2, hlen, hmem⟩
  · simp [hout] at hc
  · have hfuel2 : cells2.length < fuel :=
      inv_fuel s2 h hn2 cells2 fuel inv2 (by omega)
    have hr2 := rangeAll_spec s2 h hn2 cells2 fuel inv2 hfuel2
    have hnot1 : v ∉ l1 := fun hx => by have := p1 v hx; omega
    have hnot2 : v ∉ l2 := fun hx => by have := p2 v hx; omega
    have hnot : v ∉ vals cells2 := by
      rw [e2, List.mem_append]; tauto
    have her : (l1 ++ v :: l2).erase v = l1 ++ l2 := by
      rw [List.erase_append_right _ hnot1, List.erase_cons_head]
    refine ⟨vals cells, s2, rangeAll_spec s h hn cells fuel inv hfuel, h1,
      Reachable.delete fuel v hs h1, hmem, ?_, ⟨l1, l2, e1, by rw [hr2, e2]⟩, ?_, ?_, hlen, ?_⟩
    · rw [hr2, e2, e1, her]
    · rw [contains_spec s2 h hn2 cells2 fuel inv2 hfuel2]; simp [hnot]
    · rcases delete_spec s2 h hn2 cells2 v fuel inv2 hfuel2 with ⟨_, h3⟩ | ⟨h3, _⟩
      · exact h3
      · exact absurd h3 hnot
    · intro hlt
      have hr := wrapInt32_range cells.length
      have hl : s.len = wrapInt32 cells.length := inv.len_eq
      have hlt2 : -2147483648 < s.len := hlt
      show s2.len = s.len - 1
      rw [hlen, wrapInt32_small _ (by omega) (by omega)]
      omega

/-! ## A set with as many elements as the counter can hold -/
/-- Running `descending n` on a state all of whose values are at least `n` adds
exactly the values `0, ..., n-1`. -/
theorem descending_spec (fuel : Nat) : ∀ (n : Nat) (s : IntList) (h : Nat) (hn : Node)
    (cells : List Cell), Inv s h hn cells → (∀ x ∈ vals cells, (n : Int) ≤ x) →
    s.mem.length + n ≤ fuel →
    ∃ rs s2 hn2 cells2, runOps fuel (descending n) s = some (rs, s2) ∧ Inv s2 h hn2 cells2 ∧
      cells2.length = cells.length + n ∧ s2.mem.length = s.mem.length + n ∧
      (∀ x, x ∈ vals cells2 ↔ (x ∈ vals cells ∨ (0 ≤ x ∧ x < (n : Int)))) := by
  intro n
  induction n with
  | zero =>
    intro s h hn cells inv _ _
    exact ⟨[], s, hn, cells, rfl, inv, rfl, rfl, fun x => by simp⟩
  | succ n ih =>
    intro s h hn cells inv hge hf
    have hfuel := inv_fuel s h hn cells fuel inv (by omega)
    rcases insert_spec s h hn cells (n : Int) fuel inv hfuel with
      ⟨hin, _⟩ | ⟨_, s1, hn1, cells1, l1, l2, h1, inv1, e1, e2, _, _, _, hmem⟩
    · have := hge _ hin
      push_cast at this
      omega
    · have hlen1 : cells1.length = cells.length + 1 := by
        have a1 := congrArg List.length e1
        have a2 := congrArg List.length e2
        simp only [vals, List.length_map, List.length_append, List.length_cons] at a1 a2
        omega
      have hge1 : ∀ x ∈ vals cells1, (n : Int) ≤ x := by
        intro x hx
        rw [e2] at hx
        rcases List.mem_append.1 hx with hx | hx
        · have := hge x (by rw [e1]; exact List.mem_append_left _ hx)
          push_cast at this; omega
        · rcases List.mem_cons.1 hx with rfl | hx
          · exact le_refl _
          · have := hge x (by rw [e1]; exact List.mem_append_right _ hx)
            push_cast at this; omega
      obtain ⟨rs, s2, hn2, cells2, h2, inv2, hl2, hm2, hiff⟩ :=
        ih s1 h hn1 cells1 inv1 hge1 (by omega)
      refine ⟨true :: rs, s2, hn2, cells2, ?_, inv2, by omega, by omega, fun x => ?_⟩
      · simp only [descending, runOps, Op.run, h1, h2]
      · rw [hiff x, e2, e1]
        simp only [List.mem_append, List.mem_cons]
        push_cast
        constructor
        · rintro ((hx | rfl | hx) | hx)
          · exact Or.inl (Or.inl hx)
          · exact Or.inr ⟨by omega, by omega⟩
          · exact Or.inl (Or.inr hx)
          · exact Or.inr ⟨hx.1, by omega⟩
        · rintro ((hx | hx) | hx)
          · exact Or.inl (Or.inl hx)
          · exact Or.inl (Or.inr (Or.inr hx))
          · by_cases hxn : x = n
            · exact Or.inl (Or.inr (Or.inl hxn))
            · exact Or.inr ⟨hx.1, by omega⟩

/-- The state `descending n` leaves when started on the result of `NewInt`. -/
theorem descending_newInt (fuel n : Nat) (hf : n + 1 ≤ fuel) :
    ∃ rs s hn cells, runOps fuel (descending n) NewInt = some (rs, s) ∧ Inv s 0 hn cells ∧
      Reachable s ∧ cells.length = n ∧ s.mem.length = n + 1 ∧
      (∀ x, x ∈ vals cells ↔ (0 ≤ x ∧ x < (n : Int))) := by
  obtain ⟨rs, s, hn, cells, h1, inv, hl, hm, hiff⟩ :=
    descending_spec fuel n NewInt 0 _ [] inv_newInt (by simp [vals])
      (by simp [NewInt, newNode]; omega)
  refine ⟨rs, s, hn, cells, h1, inv, runOps_reachable fuel _ _ _ _ Reachable.newInt h1,
    by simpa using hl, ?_, fun x => ?_⟩
  · rw [hm]; simp [NewInt, newNode]; omega
  · rw [hiff x]; simp [vals]

/-! ## The counter at the 32 bit boundary -/
/-- C4 (Len part fails): after the 2147483647 calls Insert(2147483646), ...,
Insert(0) on a fresh set Len is 2147483647 and 2147483647 is not contained; the
next call Insert(2147483647) returns true and leaves Len at -2147483648, which is
not the previous Len plus one. -/
theorem C4_insert_len_wraps :
    ∃ rs s s2, runOps 4294967296 (descending 2147483647) NewInt = some (rs, s) ∧
      Contains 4294967296 s 2147483647 = some false ∧ Len s = 2147483647 ∧
      Insert 4294967296 s 2147483647 = some (true, s2) ∧ Len s2 = -2147483648 ∧
      Len s2 ≠ Len s + 1 := by
  obtain ⟨rs, s, hn, cells, h1, inv, hs, hl, hm, hiff⟩ :=
    descending_newInt 4294967296 2147483647 (by norm_num)
  have hfuel : s.mem.length ≤ 4294967296 := by rw [hm]; norm_num
  have hc : Contains 4294967296 s 2147483647 = some false := by
    rw [contains_spec s 0 hn cells _ inv (inv_fuel s 0 hn cells _ inv hfuel)]
    have : (2147483647 : Int) ∉ vals cells := by
      rw [hiff]; norm_num
    simp [this]
  have hlen : Len s = 2147483647 := by
    show s.len = _
    rw [inv.len_eq, hl]
    norm_num [wrapInt32]
  obtain ⟨out, s2, _, h2, _, _, _, _, _, h3, _⟩ :=
    insert_effect s hs 2147483647 4294967296 hfuel hc
  have hlen2 : Len s2 = -2147483648 := by
    rw [h3, hlen]; norm_num [wrapInt32]
  exact ⟨rs, s, s2, h1, hc, hlen, h2, hlen2, by rw [hlen2, hlen]; norm_num⟩

/-- C6 (Len part fails): after the 2147483648 calls Insert(2147483647), ...,
Insert(0) on a fresh set Len is -2147483648 and 0 is contained; Delete(0) returns
true and leaves Len at 2147483647, which is not the previous Len minus one. -/
theorem C6_delete_len_wraps :
    ∃ rs s s2, runOps 4294967296 (descending 2147483648) NewInt = some (rs, s) ∧
      Contains 4294967296 s 0 = some true ∧ Len s = -2147483648 ∧
      Delete 4294967296 s 0 = some (true, s2) ∧ Len s2 = 2147483647 ∧
      Len s2 ≠ Len s - 1 := by
  obtain ⟨rs, s, hn, cells, h1, inv, hs, hl, hm, hiff⟩ :=
    descending_newInt 4294967296 2147483648 (by norm_num)
  have hfuel : s.mem.length ≤ 4294967296 := by rw [hm]; norm_num
  have hc : Contains 4294967296 s 0 = some true := by
    rw [contains_spec s 0 hn cells _ inv (inv_fuel s 0 hn cells _ inv hfuel)]
    have : (0 : Int) ∈ vals cells := by
      rw [hiff]; norm_num
    simp [this]
  have hlen : Len s = -2147483648 := by
    show s.len = _
    rw [inv.len_eq, hl]
    norm_num [wrapInt32]
  obtain ⟨out, s2, _, h2, _, _, _, _, _, _, h3, _⟩ :=
    delete_effect s hs 0 4294967296 hfuel hc
  have hlen2 : Len s2 = 2147483647 := by
    rw [h3, hlen]; norm_num [wrapInt32]
  exact ⟨rs, s, s2, h1, hc, hlen, h2, hlen2, by rw [hlen2, hlen]; norm_num⟩

/-- C7 (fails): after the 2147483648 calls Insert(2147483647), ..., Insert(0) on
a fresh set Range calls an always-true visitor 2147483648 times while Len is
-2147483648. -/
theorem C7_len_differs_from_count :
    ∃ rs s out, runOps 4294967296 (descending 2147483648) NewInt = some (rs, s) ∧
      rangeAll 4294967296 s = some out ∧ out.length = 2147483648 ∧
      Len s = -2147483648 ∧ Len s ≠ (out.length : Int) := by
  obtain ⟨rs, s, hn, cells, h1, inv, hs, hl, hm, hiff⟩ :=
    descending_newInt 4294967296 2147483648 (by norm_num)
  have hfuel : s.mem.length ≤ 4294967296 := by rw [hm]; norm_num
  have hr := rangeAll_spec s 0 hn cells _ inv (inv_fuel s 0 hn cells _ inv hfuel)
  have hol : (vals cells).length = 2147483648 := by simp [vals, hl]
  have hlen : Len s = -2147483648 := by
    show s.len = _
    rw [inv.len_eq, hl]
    norm_num [wrapInt32]
  exact ⟨rs, s, vals cells, h1, hr, hol, hlen, by rw [hlen, hol]; norm_num⟩

/-- C8 (Len part fails): after the 2147483647 calls Insert(2147483646), ...,
Insert(0) on a fresh set, whose Len is 2147483647, the calls Insert(2147483647),
Insert(2147483647) return true and then false, and Len after both is -2147483648,
not one more than before. -/
theorem C8_double_insert_len_wraps :
    ∃ rs s s2 s3, runOps 4294967296 (descending 2147483647) NewInt = some (rs, s) ∧
      Contains 4294967296 s 2147483647 = some false ∧ Len s = 2147483647 ∧
      Insert 4294967296 s 2147483647 = some (true, s2) ∧
      Insert 4294967296 s2 2147483647 = some (false, s3) ∧
      Len s3 = -2147483648 ∧ Len s3 ≠ Len s + 1 := by
  obtain ⟨rs, s, hn, cells, h1, inv, hs, hl, hm, hiff⟩ :=
    descending_newInt 4294967296 2147483647 (by norm_num)
  have hfuel : s.mem.length ≤ 4294967296 := by rw [hm]; norm_num
  have hc : Contains 4294967296 s 2147483647 = some false := by
    rw [contains_spec s 0 hn cells _ inv (inv_fuel s 0 hn cells _ inv hfuel)]
    have : (2147483647 : Int) ∉ vals cells := by
      rw [hiff]; norm_num
    simp [this]
  have hlen : Len s = 2147483647 := by
    show s.len = _
    rw [inv.len_eq, hl]
    norm_num [wrapInt32]
  obtain ⟨out, s2, _, h2, hs2, hm2, _, _, hc2, h3, _⟩ :=
    insert_effect s hs 2147483647 4294967296 hfuel hc
  have hlen2 : Len s2 = -2147483648 := by
    rw [h3, hlen]; norm_num [wrapInt32]
  have hfuel2 : s2.mem.length ≤ 4294967296 := by rw [hm2, hm]; norm_num
  obtain ⟨h0, hn0, cells0, inv0⟩ := reachable_inv s2 hs2
  have hin : (2147483647 : Int) ∈ vals cells0 := by
    rw [contains_spec s2 h0 hn0 cells0 (4294967296 + 1) inv0
      (inv_fuel s2 h0 hn0 cells0 _ inv0 (by omega))] at hc2
    simpa using hc2
  rcases insert_spec s2 h0 hn0 cells0 2147483647 4294967296 inv0
    (inv_fuel s2 h0 hn0 cells0 _ inv0 hfuel2) with ⟨_, h4⟩ | ⟨hout, _⟩
  · exact ⟨rs, s, s2, s2, h1, hc, hlen, h2, h4, hlen2, by rw [hlen2, hlen]; norm_num⟩
  · exact absurd hin hout

/-- C13 (Len part fails): after the 2147483647 calls Insert(2147483646), ...,
Insert(0) on a fresh set, whose Len is 2147483647 and which does not contain
2147483647, take the interleaving of two racing calls Insert(2147483647) in which
one call runs to completion before the other takes its first step: the calls
return true and false and the value is contained afterwards, but Len is
-2147483648, not one more than before. -/
theorem C13_racing_inserts_len_wraps :
    ∃ rs s s2, runOps 4294967296 (descending 2147483647) NewInt = some (rs, s) ∧
      Contains 4294967296 s 2147483647 = some false ∧ Len s = 2147483647 ∧
      runOps 4294967296 [Op.insert 2147483647, Op.insert 2147483647] s =
        some ([true, false], s2) ∧
      Contains 4294967296 s2 2147483647 = some true ∧
      Len s2 = -2147483648 ∧ Len s2 ≠ Len s + 1 := by
  obtain ⟨rs, s, hn, cells, h1, inv, hs, hl, hm, hiff⟩ :=
    descending_newInt 4294967296 2147483647 (by norm_num)
  have hfuel : s.mem.length ≤ 4294967296 := by rw [hm]; norm_num
  have hc : Contains 4294967296 s 2147483647 = some false := by
    rw [contains_spec s 0 hn cells _ inv (inv_fuel s 0 hn cells _ inv hfuel)]
    have : (2147483647 : Int) ∉ vals cells := by
      rw [hiff]; norm_num
    simp [this]
  have hlen : Len s = 2147483647 := by
    show s.len = _
    rw [inv.len_eq, hl]
    norm_num [wrapInt32]
  rcases insert_spec s 0 hn cells 2147483647 4294967296 inv
    (inv_fuel s 0 hn cells _ inv hfuel) with
    ⟨hin, _⟩ | ⟨_, s2, hn2, cells2, l1, l2, h2, inv2, _, e2, _, _, h3, hm2⟩
  · rw [contains_spec s 0 hn cells _ inv (inv_fuel s 0 hn cells _ inv hfuel)] at hc
    simp [hin] at hc
  · have hfuel2 : s2.mem.length ≤ 4294967296 := by rw [hm2, hm]; norm_num
    have hin2 : (2147483647 : Int) ∈ vals cells2 := by rw [e2]; simp
    have hlen2 : Len s2 = -2147483648 := by
      show s2.len = _
      have : s.len = 2147483647 := hlen
      rw [h3, this]; norm_num [wrapInt32]
    rcases insert_spec s2 0 hn2 cells2 2147483647 4294967296 inv2
      (inv_fuel s2 0 hn2 cells2 _ inv2 hfuel2) with ⟨_, h4⟩ | ⟨hout, _⟩
    · refine ⟨rs, s, s2, h1, hc, hlen, ?_, ?_, hlen2, by rw [hlen2, hlen]; norm_num⟩
      · simp only [runOps, Op.run, h2, h4]
      · rw [contains_spec s2 0 hn2 cells2 _ inv2 (inv_fuel s2 0 hn2 cells2 _ inv2 hfuel2)]
        simp [hin2]
    · exact absurd hin2 hout

/-! ## The example run of the specification -/
/-- The example run of the specification: three inserts into a fresh set all
return true and leave Range output 3, 5, 8 and Len 3; a fourth Insert(5) returns
false and leaves Len at 3. -/
theorem scenario_insert :
    runOps 4 [Op.insert 5, Op.insert 3, Op.insert 8] NewInt = some ([true, true, true], sample) ∧
    rangeAll 4 sample = some [3, 5, 8] ∧ Len sample = 3 ∧
    Insert 4 sample 5 = some (false, sample) := by
  decide

/-- The example run of the specification, continued: Delete(3) returns true and
leaves Len 2 and Contains(3) false, a second Delete(3) returns false, and of 8
and 100 only 8 is contained. -/
theorem scenario_delete :
    ∃ s2, Delete 4 sample 3 = some (true, s2) ∧ Len s2 = 2 ∧ Contains 4 s2 3 = some false ∧
      Delete 4 s2 3 = some (false, s2) ∧ rangeAll 4 s2 = some [5, 8] ∧
      Contains 4 s2 8 = some true ∧ Contains 4 s2 100 = some false :=
  ⟨{ mem := [{ value := -1, marked := 0, next := some 1, mu := false },
             { value := 5, marked := 0, next := some 3, mu := false },
             { value := 3, marked := 1, next := some 1, mu := false },
             { value := 8, marked := 0, next := none, mu := false }],
     head := some 0, len := 2 },
    by decide, by decide, by decide, by decide, by decide, by decide, by decide⟩

/-! ## The positioning walk at rest -/
theorem mem_of_snoc (c : Cell) (l pre : List Cell) (d : Cell) (h : c :: l = pre ++ [d]) :
    d = c ∨ d ∈ l := by
  have : d ∈ c :: l := by rw [h]; simp
  exact List.mem_cons.1 this

/-- What the positioning walk returns at rest: the chain splits into the cells
below the target and the cells at or above it, `a` is the head or the last cell
below, and `b` is the first cell at or above, if there is one. -/
theorem findPositions_spec (s : IntList) (h : Nat) (hn : Node) (cells : List Cell) (v : Int)
    (tf : Nat) (inv : Inv s h hn cells) (hf : cells.length < tf) :
    ∃ a b na l1 l2, findPositions tf s v = some (a, b) ∧ s.mem[a]? = some na ∧ na.next = b ∧
      na.marked = 0 ∧ na.mu = false ∧ (a = h ∨ (na.value < v ∧ (a, na) ∈ l1)) ∧
      cells = l1 ++ l2 ∧ (∀ x ∈ vals l1, x < v) ∧ (∀ x ∈ vals l2, v ≤ x) ∧
      b = l2.head?.map Prod.fst ∧
      (∀ c ∈ l2.head?, s.mem[c.1]? = some c.2 ∧ c.2.marked = 0 ∧ c.2.mu = false ∧ a ≠ c.1) := by
  obtain ⟨_, hhn, hch⟩ := inv.chain
  obtain ⟨l1, l2, e, p1, p2, p3⟩ := findLoop_spec s.mem v cells tf h hn.next hch hf
  have hfind : findPositions tf s v = some (lastAddr h l1, l2.head?.map Prod.fst) := by
    simp only [findPositions, inv.head_eq, loadNext]
    simp only [show s.mem[h]? = some hn from hhn, p3]
  obtain ⟨pre, d, hsn, hd⟩ := exists_snoc (h, hn) l1
  have hfull : (h, hn) :: cells = pre ++ d :: l2 := by
    rw [e, ← List.cons_append, hsn]; simp
  have hch2 := inv.chain
  rw [hfull] at hch2
  have hnd := inv.nodup
  rw [hfull] at hnd
  have hlive := inv.live
  rw [hfull] at hlive
  have hsorted := inv.sorted
  rw [e, vals_append] at hsorted
  obtain ⟨m, s1, hm, hdm, hl2⟩ := (IsSeg_append s.mem pre (d :: l2) (some h) none).1 hch2
  rw [← hd] at hfind
  have hnext : d.2.next = l2.head?.map Prod.fst := by
    cases l2 with
    | nil => exact hl2
    | cons c2 l3 => exact hl2.1
  have hge : ∀ x ∈ vals l2, v ≤ x := by
    cases l2 with
    | nil => simp [vals]
    | cons c2 l3 =>
      have h1 : v ≤ c2.2.value := p2 c2 (by simp)
      have h3 : ∀ y ∈ vals l3, c2.2.value < y :=
        (List.pairwise_cons.1 (List.pairwise_append.1 hsorted).2.1).1
      intro x hx
      rw [vals_cons] at hx
      rcases List.mem_cons.1 hx with rfl | hx
      · exact h1
      · have := h3 x hx; omega
  refine ⟨d.1, _, d.2, l1, l2, hfind, hdm, hnext, hlive d (by simp),
    inv.free d.2 (List.getElem?_mem hdm), ?_, e, ?_, hge, rfl, ?_⟩
  · rcases mem_of_snoc (h, hn) l1 pre d hsn with hd2 | hd2
    · left; rw [hd2]
    · right; exact ⟨p1 d hd2, hd2⟩
  · intro x hx
    obtain ⟨c, hc, rfl⟩ := List.mem_map.1 hx
    exact p1 c hc
  · intro c hc
    cases l2 with
    | nil => simp at hc
    | cons c2 l3 =>
      simp only [List.head?_cons, Option.mem_def, Option.some.injEq] at hc
      subst hc
      refine ⟨hl2.2.1, hlive c2 (by simp), inv.free c2.2 (List.getElem?_mem hl2.2.1), ?_⟩
      intro heq
      simp only [List.map_append, List.map_cons] at hnd
      have := (List.nodup_cons.1 (List.nodup_append.1 hnd).2.1).1
      exact this (by simp [heq])

/-! ## Node fields never go back -/
theorem sameFlags_refl (mem : Heap) : SameFlags mem mem :=
  fun _ n h => ⟨n, h, rfl, rfl⟩

theorem sameFlags_trans {m1 m2 m3 : Heap} (h1 : SameFlags m1 m2) (h2 : SameFlags m2 m3) :
    SameFlags m1 m3 := by
  intro p n hn
  obtain ⟨n2, a1, a2, a3⟩ := h1 p n hn
  obtain ⟨n3, b1, b2, b3⟩ := h2 p n2 a1
  exact ⟨n3, b1, b2.trans a2, b3.trans a3⟩

theorem sameFlags_keeps {m1 m2 : Heap} (h : SameFlags m1 m2) : Keeps m1 m2 := by
  intro p n hn
  obtain ⟨n2, a1, a2, a3⟩ := h p n hn
  exact ⟨n2, a1, a2, fun hm => a3.trans hm⟩

theorem marksOne_keeps {m1 m2 : Heap} {b : Nat} (h : MarksOne m1 m2 b) : Keeps m1 m2 := by
  intro p n hn
  by_cases hp : p = b
  · subst hp
    obtain ⟨⟨nb, nb2, a1, _, a3, a4, a5⟩, _⟩ := h
    rw [a1] at hn
    cases hn
    exact ⟨nb2, a3, a5, fun _ => a4⟩
  · obtain ⟨n2, a1, a2, a3⟩ := h.2 p n hp hn
    exact ⟨n2, a1, a2, fun hm => a3.trans hm⟩

theorem keeps_refl (mem : Heap) : Keeps mem mem :=
  fun _ n h => ⟨n, h, rfl, fun hm => hm⟩

theorem keeps_trans {m1 m2 m3 : Heap} (h1 : Keeps m1 m2) (h2 : Keeps m2 m3) : Keeps m1 m3 := by
  intro p n hn
  obtain ⟨n2, a1, a2, a3⟩ := h1 p n hn
  obtain ⟨n3, b1, b2, b3⟩ := h2 p n2 a1
  exact ⟨n3, b1, b2.trans a2, fun hm => b3 (a3 hm)⟩

theorem sameNodes_refl (mem : Heap) : SameNodes mem mem := ⟨rfl, sameFlags_refl mem⟩

theorem sameNodes_trans {m1 m2 m3 : Heap} (h1 : SameNodes m1 m2) (h2 : SameNodes m2 m3) :
    SameNodes m1 m3 := ⟨h2.1.trans h1.1, sameFlags_trans h1.2 h2.2⟩

theorem sameNodes_before {m1 m2 m3 : Heap} {b : Nat} (h1 : SameNodes m1 m2)
    (h2 : MarksOne m2 m3 b) : MarksOne m1 m3 b := by
  constructor
  · obtain ⟨⟨nb, nb2, a1, a2, a3, a4, a5⟩, _⟩ := h2
    have hlt : b < m1.length := by
      rw [← h1.1]; exact (List.getElem?_eq_some_iff.1 a1).1
    obtain ⟨n2, c1, c2, c3⟩ := h1.2 b m1[b] (List.getElem?_eq_getElem hlt)
    rw [a1] at c1
    cases c1
    exact ⟨m1[b], nb2, List.getElem?_eq_getElem hlt, by rw [← c3]; exact a2, a3, a4,
      a5.trans c2⟩
  · intro p n hp hn
    obtain ⟨n2, a1, a2, a3⟩ := h1.2 p n hn
    obtain ⟨n3, b1, b2, b3⟩ := h2.2 p n2 hp a1
    exact ⟨n3, b1, b2.trans a2, b3.trans a3⟩

theorem marksOne_after {m1 m2 m3 : Heap} {b : Nat} (h1 : MarksOne m1 m2 b)
    (h2 : SameNodes m2 m3) : MarksOne m1 m3 b := by
  constructor
  · obtain ⟨⟨nb, nb2, a1, a2, a3, a4, a5⟩, _⟩ := h1
    obtain ⟨n3, c1, c2, c3⟩ := h2.2 b nb2 a3
    exact ⟨nb, n3, a1, a2, c1, c3.trans a4, c2.trans a5⟩
  · intro p n hp hn
    obtain ⟨n2, a1, a2, a3⟩ := h1.2 p n hp hn
    obtain ⟨n3, b1, b2, b3⟩ := h2.2 p n2 a1
    exact ⟨n3, b1, b2.trans a2, b3.trans a3⟩

theorem set_sameNodes (mem : Heap) (p : Nat) (n n2 : Node) (h : mem[p]? = some n)
    (hv : n2.value = n.value) (hm : n2.marked = n.marked) : SameNodes mem (mem.set p n2) := by
  refine ⟨List.length_set _ _ _, fun q nq hq => ?_⟩
  by_cases hqp : p = q
  · subst hqp
    rw [h] at hq
    cases hq
    exact ⟨n2, by simp [(List.getElem?_eq_some_iff.1 h).1], hv, hm⟩
  · exact ⟨nq, by rw [List.getElem?_set_ne hqp]; exact hq, rfl, rfl⟩

theorem lock_same {mem m2 : Heap} {p : Nat} (h : lock mem p = some m2) : SameNodes mem m2 := by
  simp only [lock] at h
  split at h
  · contradiction
  · rename_i nd hnd
    split at h
    · contradiction
    · cases h
      exact set_sameNodes mem p nd _ hnd rfl rfl

theorem unlock_same {mem m2 : Heap} {p : Nat} (h : unlock mem p = some m2) :
    SameNodes mem m2 := by
  simp only [unlock] at h
  split at h
  · contradiction
  · rename_i nd hnd
    split at h
    · cases h
      exact set_sameNodes mem p nd _ hnd rfl rfl
    · contradiction

theorem storeNext_same {mem m2 : Heap} {p : Nat} {q : Option Nat}
    (h : storeNext mem p q = some m2) : SameNodes mem m2 := by
  simp only [storeNext] at h
  split at h
  · contradiction
  · rename_i nd hnd
    cases h
    exact set_sameNodes mem p nd _ hnd rfl rfl

theorem newNode_same (mem : Heap) (v : Int) (q : Option Nat) :
    SameFlags mem (newNode mem v q).1 := by
  intro p n hn
  refine ⟨n, ?_, rfl, rfl⟩
  show (mem ++ _)[p]? = some n
  rw [List.getElem?_append_left (List.getElem?_eq_some_iff.1 hn).1]
  exact hn

theorem setDeleted_keeps {mem m2 : Heap} {p : Nat} (h : setDeleted mem p = some m2) :
    Keeps mem m2 := by
  simp only [setDeleted] at h
  split at h
  · contradiction
  · rename_i nd hnd
    cases h
    intro q nq hq
    by_cases hqp : p = q
    · subst hqp
      rw [hnd] at hq
      cases hq
      exact ⟨{ nd with marked := nodeDeleted },
        by simp [(List.getElem?_eq_some_iff.1 hnd).1], rfl, fun _ => rfl⟩
    · exact ⟨nq, by rw [List.getElem?_set_ne hqp]; exact hq, rfl, fun hm => hm⟩

theorem setDeleted_marks {mem m2 : Heap} {p : Nat} (h : setDeleted mem p = some m2)
    (hd : isDeleted mem p = some false) : MarksOne mem m2 p := by
  simp only [setDeleted] at h
  simp only [isDeleted] at hd
  split at h
  · contradiction
  · rename_i nd hnd
    cases h
    simp only [hnd, Option.some.injEq, beq_eq_false_iff_ne, ne_eq] at hd
    refine ⟨⟨nd, { nd with marked := nodeDeleted }, hnd, hd,
      by simp [(List.getElem?_eq_some_iff.1 hnd).1], rfl, rfl⟩, ?_⟩
    intro q nq hqp hq
    exact ⟨nq, by rw [List.getElem?_set_ne (Ne.symm hqp)]; exact hq, rfl, rfl⟩

theorem isDeleted_same {m1 m2 : Heap} (h : SameNodes m1 m2) (p : Nat) (d : Bool)
    (hd : isDeleted m1 p = some d) : isDeleted m2 p = some d := by
  simp only [isDeleted] at hd ⊢
  split at hd
  · contradiction
  · rename_i nd hnd
    obtain ⟨n2, a1, _, a3⟩ := h.2 p nd hnd
    simp only [a1, a3]
    exact hd

theorem insertLoop_flags (tf : Nat) (v : Int) : ∀ (k : Nat) (s : IntList) (r : Bool)
    (s2 : IntList), insertLoop tf v k s = some (r, s2) → SameFlags s.mem s2.mem := by
  intro k
  induction k with
  | zero => intro s r s2 h; simp [insertLoop] at h
  | succ k ih =>
    intro s r s2 h
    simp only [insertLoop] at h
    repeat' split at h
    all_goals first
      | contradiction
      | (simp only [Option.some.injEq, Prod.mk.injEq] at h
         obtain ⟨_, rfl⟩ := h
         first
           | exact sameFlags_refl _
           | exact sameFlags_trans (lock_same (by assumption)).2
               (sameFlags_trans (newNode_same _ _ _)
                 (sameFlags_trans (storeNext_same (by assumption)).2
                   (unlock_same (by assumption)).2)))
      | exact sameFlags_trans (lock_same (by assumption)).2
          (sameFlags_trans (unlock_same (by assumption)).2 (ih _ _ _ h))

theorem deleteLoop_flags (tf : Nat) (v : Int) : ∀ (k : Nat) (s : IntList) (r : Bool)
    (s2 : IntList), deleteLoop tf v k s = some (r, s2) →
    (r = false → SameNodes s.mem s2.mem) ∧ (r = true → ∃ b, MarksOne s.mem s2.mem b) := by
  intro k
  induction k with
  | zero => intro s r s2 h; simp [deleteLoop] at h
  | succ k ih =>
    intro s r s2 h
    simp only [deleteLoop] at h
    repeat' split at h
    all_goals first
      | contradiction
      | (simp only [Option.some.injEq, Prod.mk.injEq] at h
         obtain ⟨rfl, rfl⟩ := h
         first
           | exact ⟨fun _ => sameNodes_refl _, fun hh => by simp at hh⟩
           | exact ⟨fun hh => by simp at hh, fun _ => ⟨_,
               sameNodes_before (lock_same (by assumption))
                 (sameNodes_before (lock_same (by assumption))
                   (marksOne_after
                     (setDeleted_marks (by assumption)
                       (isDeleted_same (lock_same (by assumption)) _ _ (by assumption)))
                     (sameNodes_trans (storeNext_same (by assumption))
                       (sameNodes_trans (unlock_same (by assumption))
                         (unlock_same (by assumption))))))⟩⟩)
      | (have hrec := ih _ _ _ h
         have hpre : SameNodes s.mem _ :=
           sameNodes_trans (lock_same (by assumption)) (unlock_same (by assumption))
         exact ⟨fun hh => sameNodes_trans hpre (hrec.1 hh), fun hh =>
           (hrec.2 hh).imp (fun _ hm => sameNodes_before hpre hm)⟩)
      | (have hrec := ih _ _ _ h
         have hpre : SameNodes s.mem _ :=
           sameNodes_trans (lock_same (by assumption)) (sameNodes_trans
             (lock_same (by assumption)) (sameNodes_trans (unlock_same (by assumption))
               (unlock_same (by assumption))))
         exact ⟨fun hh => sameNodes_trans hpre (hrec.1 hh), fun hh =>
           (hrec.2 hh).imp (fun _ hm => sameNodes_before hpre hm)⟩)

/-- C12: no primitive step changes the value of a node or clears its deletion
flag: locking, unlocking, storing a successor and allocating leave values and
flags as they are, and setting the flag keeps values and set flags.  So Insert
changes no value and no flag, a Delete that returns false neither, and a Delete
that returns true sets the flag of exactly one node, whose flag was clear, and
changes no value. -/
theorem C12_node_fields_monotone :
    (∀ (mem m2 : Heap) (p : Nat), lock mem p = some m2 → SameNodes mem m2) ∧
    (∀ (mem m2 : Heap) (p : Nat), unlock mem p = some m2 → SameNodes mem m2) ∧
    (∀ (mem m2 : Heap) (p : Nat) (q : Option Nat), storeNext mem p q = some m2 →
      SameNodes mem m2) ∧
    (∀ (mem : Heap) (v : Int) (q : Option Nat), SameFlags mem (newNode mem v q).1) ∧
    (∀ (mem m2 : Heap) (p : Nat), setDeleted mem p = some m2 → Keeps mem m2) ∧
    (∀ (fuel : Nat) (s s2 : IntList) (v : Int) (r : Bool),
      Insert fuel s v = some (r, s2) → SameFlags s.mem s2.mem) ∧
    (∀ (fuel : Nat) (s s2 : IntList) (v : Int),
      Delete fuel s v = some (false, s2) → SameNodes s.mem s2.mem) ∧
    (∀ (fuel : Nat) (s s2 : IntList) (v : Int),
      Delete fuel s v = some (true, s2) → ∃ b, MarksOne s.mem s2.mem b) ∧
    (∀ (fuel : Nat) (s s2 : IntList) (v : Int) (r : Bool),
      Delete fuel s v = some (r, s2) → Keeps s.mem s2.mem) := by
  refine ⟨fun _ _ _ h => lock_same h, fun _ _ _ h => unlock_same h,
    fun _ _ _ _ h => storeNext_same h, newNode_same, fun _ _ _ h => setDeleted_keeps h,
    fun fuel s s2 v r h => insertLoop_flags fuel v fuel s r s2 h,
    fun fuel s s2 v h => (deleteLoop_flags fuel v fuel s false s2 h).1 rfl,
    fun fuel s s2 v h => (deleteLoop_flags fuel v fuel s true s2 h).2 rfl, ?_⟩
  intro fuel s s2 v r h
  cases r with
  | false => exact sameFlags_keeps ((deleteLoop_flags fuel v fuel s false s2 h).1 rfl).2
  | true =>
    obtain ⟨b, hb⟩ := (deleteLoop_flags fuel v fuel s true s2 h).2 rfl
    exact marksOne_keeps hb

/-- C12 at Delete(3) on the sample state: one node gets its flag set. -/
theorem C12_witness :
    ∃ b, MarksOne sample.mem
      [{ value := -1, marked := 0, next := some 1, mu := false },
       { value := 5, marked := 0, next := some 3, mu := false },
       { value := 3, marked := 1, next := some 1, mu := false },
       { value := 8, marked := 0, next := none, mu := false }] b :=
  C12_node_fields_monotone.2.2.2.2.2.2.2.1 4 sample
    { mem := [{ value := -1, marked := 0, next := some 1, mu := false },
              { value := 5, marked := 0, next := some 3, mu := false },
              { value := 3, marked := 1, next := some 1, mu := false },
              { value := 8, marked := 0, next := none, mu := false }],
      head := some 0, len := 2 } 3 (by decide)

theorem op_keeps (fuel : Nat) (op : Op) (s s2 : IntList) (r : Bool)
    (h : op.run fuel s = some (r, s2)) : Keeps s.mem s2.mem := by
  cases op with
  | insert v => exact sameFlags_keeps (insertLoop_flags fuel v fuel s r s2 h)
  | delete v =>
    cases r with
    | false => exact sameFlags_keeps ((deleteLoop_flags fuel v fuel s false s2 h).1 rfl).2
    | true =>
      obtain ⟨b, hb⟩ := (deleteLoop_flags fuel v fuel s true s2 h).2 rfl
      exact marksOne_keeps hb

theorem runOps_keeps (fuel : Nat) : ∀ (ops : List Op) (s s2 : IntList) (rs : List Bool),
    runOps fuel ops s = some (rs, s2) → Keeps s.mem s2.mem := by
  intro ops
  induction ops with
  | nil =>
    intro s s2 rs h
    simp only [runOps, Option.some.injEq, Prod.mk.injEq] at h
    rw [← h.2]; exact keeps_refl _
  | cons op ops ih =>
    intro s s2 rs h
    simp only [runOps] at h
    cases hop : op.run fuel s with
    | none => simp [hop] at h
    | some r1 =>
      obtain ⟨r, i2⟩ := r1
      simp only [hop] at h
      cases hrest : runOps fuel ops i2 with
      | none => simp [hrest] at h
      | some r2 =>
        obtain ⟨rs2, i3⟩ := r2
        simp only [hrest, Option.some.injEq, Prod.mk.injEq] at h
        rw [← h.2]
        exact keeps_trans (op_keeps fuel op s i2 r hop) (ih i2 i3 rs2 hrest)

theorem IsSeg_cell (mem : Heap) : ∀ (l : List Cell) (p q : Option Nat),
    IsSeg mem p l q → ∀ c ∈ l, mem[c.1]? = some c.2 := by
  intro l
  induction l with
  | nil => intro p q _ c hc; simp at hc
  | cons c0 l ih =>
    intro p q h c hc
    obtain ⟨_, h2, h3⟩ := h
    rcases List.mem_cons.1 hc with rfl | hc
    · exact h2
    · exact ih _ _ h3 c hc

theorem IsSeg_next_mem (mem : Heap) : ∀ (l : List Cell) (p : Option Nat),
    IsSeg mem p l none → ∀ c ∈ l, ∀ r, c.2.next = some r → r ∈ l.map Prod.fst := by
  intro l
  induction l with
  | nil => intro p _ c hc; simp at hc
  | cons c0 l ih =>
    intro p h c hc r hr
    obtain ⟨_, _, h3⟩ := h
    rcases List.mem_cons.1 hc with rfl | hc
    · cases l with
      | nil =>
        rw [IsSeg_nil] at h3
        rw [h3] at hr
        cases hr
      | cons c1 l2 =>
        have := h3.1
        rw [hr] at this
        cases this
        simp
    · exact List.mem_cons_of_mem _ (ih _ h3 c hc r hr)

theorem linked_in_chain (s : IntList) (h : Nat) (hn : Node) (cells : List Cell)
    (inv : Inv s h hn cells) (p : Nat) (hl : Linked s.mem h p) :
    p ∈ ((h, hn) :: cells).map Prod.fst := by
  induction hl with
  | refl => simp
  | @step q r _ hnext ih =>
    obtain ⟨c, hc, hcq⟩ := List.mem_map.1 ih
    have hcell := IsSeg_cell s.mem _ _ _ inv.chain c hc
    simp only [loadNext] at hnext
    rw [← hcq, hcell] at hnext
    simp only [Option.some.injEq] at hnext
    exact IsSeg_next_mem s.mem _ _ inv.chain c hc r hnext

theorem inv_linked_live (s : IntList) (h : Nat) (hn : Node) (cells : List Cell)
    (inv : Inv s h hn cells) (p : Nat) (hl : Linked s.mem h p) :
    isDeleted s.mem p = some false := by
  obtain ⟨c, hc, hcq⟩ := List.mem_map.1 (linked_in_chain s h hn cells inv p hl)
  have hcell := IsSeg_cell s.mem _ _ _ inv.chain c hc
  simp only [isDeleted]
  rw [← hcq, hcell]
  simp [inv.live c hc, nodeDeleted]

theorem reachable_inv0 (s : IntList) (hs : Reachable s) : ∃ hn cells, Inv s 0 hn cells := by
  induction hs with
  | newInt => exact ⟨_, _, inv_newInt⟩
  | @insert i i2 r fuel v _ hins ih =>
    obtain ⟨hn, cells, inv⟩ := ih
    have hbig := Insert_mono fuel (max fuel (cells.length + 1)) i v _ (le_max_left _ _) hins
    rcases insert_spec i 0 hn cells v _ inv (lt_of_lt_of_le (Nat.lt_succ_self _)
      (le_max_right fuel _)) with ⟨_, h1⟩ | ⟨_, s2, hn2, cells2, _, _, h1, inv2, _⟩
    · rw [h1] at hbig
      simp only [Option.some.injEq, Prod.mk.injEq] at hbig
      rw [← hbig.2]; exact ⟨hn, cells, inv⟩
    · rw [h1] at hbig
      simp only [Option.some.injEq, Prod.mk.injEq] at hbig
      rw [← hbig.2]; exact ⟨hn2, cells2, inv2⟩
  | @delete i i2 r fuel v _ hdel ih =>
    obtain ⟨hn, cells, inv⟩ := ih
    have hbig := Delete_mono fuel (max fuel (cells.length + 1)) i v _ (le_max_left _ _) hdel
    rcases delete_spec i 0 hn cells v _ inv (lt_of_lt_of_le (Nat.lt_succ_self _)
      (le_max_right fuel _)) with ⟨_, h1⟩ | ⟨_, s2, hn2, cells2, _, _, h1, inv2, _⟩
    · rw [h1] at hbig
      simp only [Option.some.injEq, Prod.mk.injEq] at hbig
      rw [← hbig.2]; exact ⟨hn, cells, inv⟩
    · rw [h1] at hbig
      simp only [Option.some.injEq, Prod.mk.injEq] at hbig
      rw [← hbig.2]; exact ⟨hn2, cells2, inv2⟩

/-- C16: after any run of Insert and Delete calls on the result of NewInt the
head is still the node NewInt made, its flag is clear, and no node linked from
it has its flag set; a node whose flag is set stays flagged and unlinked through
every later run. -/
theorem C16_quiescent_chain (ops : List Op) (fuel : Nat) (rs : List Bool) (s : IntList)
    (hrun : runOps fuel ops NewInt = some (rs, s)) :
    ∃ h, NewInt.head = some h ∧ s.head = some h ∧ isDeleted s.mem h = some false ∧
      (∀ p, Linked s.mem h p → isDeleted s.mem p = some false) ∧
      (∀ (ops2 : List Op) (fuel2 : Nat) (rs2 : List Bool) (s2 : IntList),
        runOps fuel2 ops2 s = some (rs2, s2) →
        s2.head = some h ∧
        ∀ p, isDeleted s.mem p = some true →
          isDeleted s2.mem p = some true ∧ ¬ Linked s2.mem h p) := by
  have hs := runOps_reachable fuel ops NewInt rs s Reachable.newInt hrun
  obtain ⟨hn, cells, inv⟩ := reachable_inv0 s hs
  refine ⟨0, rfl, inv.head_eq, inv_linked_live s 0 hn cells inv 0 (Linked.refl 0),
    inv_linked_live s 0 hn cells inv, ?_⟩
  intro ops2 fuel2 rs2 s2 hrun2
  have hs2 := runOps_reachable fuel2 ops2 s rs2 s2 hs hrun2
  obtain ⟨hn2, cells2, inv2⟩ := reachable_inv0 s2 hs2
  refine ⟨inv2.head_eq, fun p hp => ?_⟩
  have hk := runOps_keeps fuel2 ops2 s s2 rs2 hrun2
  have hdel : isDeleted s2.mem p = some true := by
    simp only [isDeleted] at hp ⊢
    split at hp
    · contradiction
    · rename_i nd hnd
      obtain ⟨n2, a1, _, a3⟩ := hk p nd hnd
      simp only [Option.some.injEq, beq_iff_eq] at hp
      simp only [a1, a3 hp]
      simp
  refine ⟨hdel, fun hl => ?_⟩
  have := inv_linked_live s2 0 hn2 cells2 inv2 p hl
  rw [hdel] at this
  cases this

/-- C16 at the run of three inserts that builds the sample state. -/
theorem C16_witness :
    ∃ h, NewInt.head = some h ∧ sample.head = some h ∧ isDeleted sample.mem h = some false ∧
      (∀ p, Linked sample.mem h p → isDeleted sample.mem p = some false) ∧
      (∀ (ops2 : List Op) (fuel2 : Nat) (rs2 : List Bool) (s2 : IntList),
        runOps fuel2 ops2 sample = some (rs2, s2) →
        s2.head = some h ∧
        ∀ p, isDeleted sample.mem p = some true →
          isDeleted s2.mem p = some true ∧ ¬ Linked s2.mem h p) :=
  C16_quiescent_chain [Op.insert 5, Op.insert 3, Op.insert 8] 4 [true, true, true] sample
    (by decide)

/-! ## The positioning contract -/
/-- C14 as stated fails: on the result of NewInt the positioning walk for the
target -5 returns the head as predecessor, and the head holds -1, which is not
below -5. -/
theorem C14_counterexample :
    findPositions 1 NewInt (-5) = some (0, none) ∧
    NewInt.mem[0]? = some { value := -1, marked := 0, next := none, mu := false } ∧
    ¬ ∃ a b na, findPositions 1 NewInt (-5) = some (a, b) ∧ NewInt.mem[a]? = some na ∧
      na.value < -5 := by
  refine ⟨by decide, by decide, ?_⟩
  rintro ⟨a, b, na, h1, h2, h3⟩
  have h0 : findPositions 1 NewInt (-5) = some (0, none) := by decide
  rw [h0] at h1
  simp only [Option.some.injEq, Prod.mk.injEq] at h1
  rw [← h1.1] at h2
  have h4 : NewInt.mem[0]? = some { value := -1, marked := 0, next := none, mu := false } := by
    decide
  rw [h4] at h2
  cases h2
  exact absurd h3 (by decide)

/-- C14 amended: in every reachable state the positioning walk completes and
returns adjacent nodes `a`, `b` (`b` is the successor stored in `a`) where `a` is
the head or an element below the target, `b`, when present, holds a value at or
above the target, and `b` is absent exactly when the target exceeds every
element. -/
theorem C14_positioning (s : IntList) (hs : Reachable s) (target : Int) (fuel : Nat)
    (hf : s.mem.length ≤ fuel) :
    ∃ a b na out, findPositions fuel s target = some (a, b) ∧ rangeAll fuel s = some out ∧
      s.mem[a]? = some na ∧ na.next = b ∧
      (s.head = some a ∨ (na.value < target ∧ na.value ∈ out)) ∧
      (∀ p, b = some p → ∃ nb, s.mem[p]? = some nb ∧ target ≤ nb.value ∧ nb.value ∈ out) ∧
      (b = none ↔ ∀ x ∈ out, x < target) := by
  obtain ⟨h, hn, cells, inv⟩ := reachable_inv s hs
  have hfuel := inv_fuel s h hn cells fuel inv hf
  obtain ⟨a, b, na, l1, l2, h1, h2, h3, _, _, h6, e, p1, p2, hb, hc⟩ :=
    findPositions_spec s h hn cells target fuel inv hfuel
  refine ⟨a, b, na, vals cells, h1, rangeAll_spec s h hn cells fuel inv hfuel, h2, h3, ?_, ?_, ?_⟩
  · rcases h6 with h6 | ⟨h6, h7⟩
    · left; rw [h6]; exact inv.head_eq
    · right
      refine ⟨h6, ?_⟩
      rw [e, vals_append]
      exact List.mem_append_left _ (List.mem_map.2 ⟨(a, na), h7, rfl⟩)
  · intro p hp
    cases l2 with
    | nil => rw [hb] at hp; simp at hp
    | cons c l3 =>
      rw [hb] at hp
      simp only [List.head?_cons, Option.map_some', Option.some.injEq] at hp
      subst hp
      refine ⟨c.2, (hc c (by simp)).1, p2 _ (by simp [vals_cons]), ?_⟩
      rw [e, vals_append, vals_cons]
      simp
  · rw [hb, e, vals_append]
    cases l2 with
    | nil =>
      simp only [List.head?_nil, Option.map_none', true_iff, vals, List.map_nil,
        List.append_nil]
      exact p1
    | cons c l3 =>
      have hge := p2 c.2.value (by simp [vals_cons])
      constructor
      · intro hh; simp at hh
      · intro hall
        have := hall c.2.value (by simp [vals_cons])
        omega

/-- C14 amended, at the sample state and the target 4. -/
theorem C14_witness :
    Reachable sample ∧ sample.mem.length ≤ 4 ∧
    ∃ a b na out, findPositions 4 sample 4 = some (a, b) ∧ rangeAll 4 sample = some out ∧
      sample.mem[a]? = some na ∧ na.next = b ∧
      (sample.head = some a ∨ (na.value < 4 ∧ na.value ∈ out)) ∧
      (∀ p, b = some p → ∃ nb, sample.mem[p]? = some nb ∧ 4 ≤ nb.value ∧ nb.value ∈ out) ∧
      (b = none ↔ ∀ x ∈ out, x < 4) :=
  ⟨sample_reachable, by decide, C14_positioning sample sample_reachable 4 4 (by decide)⟩

/-! ## One pass of the retry loop and the frame of Delete -/
/-- C17: in every state reached by calls run one after another the positioning
walk returns a pair that passes the validation of both methods (the successor
stored in `a` is `b`, and neither is flagged), and Insert and Delete of any value
complete within a single pass of their retry loop: with room for one pass only
they return the very result of the full call, and with room for none they return
nothing. -/
theorem C17_single_pass (s : IntList) (hs : Reachable s) (v : Int) (fuel : Nat)
    (hf : s.mem.length ≤ fuel) :
    (∃ a b, findPositions fuel s v = some (a, b) ∧ loadNext s.mem a = some b ∧
      isDeleted s.mem a = some false ∧ (∀ p, b = some p → isDeleted s.mem p = some false)) ∧
    (∃ r, insertLoop fuel v 1 s = some r ∧ Insert fuel s v = some r) ∧
    (∃ r, deleteLoop fuel v 1 s = some r ∧ Delete fuel s v = some r) ∧
    insertLoop fuel v 0 s = none ∧ deleteLoop fuel v 0 s = none := by
  obtain ⟨h, hn, cells, inv⟩ := reachable_inv s hs
  have hfuel := inv_fuel s h hn cells fuel inv hf
  have hpos : 1 ≤ fuel := by omega
  refine ⟨?_, ?_, ?_, rfl, rfl⟩
  · obtain ⟨a, b, na, l1, l2, h1, h2, h3, h4, _, _, _, _, _, hb, hc⟩ :=
      findPositions_spec s h hn cells v fuel inv hfuel
    refine ⟨a, b, h1, by simp [loadNext, h2, h3], by simp [isDeleted, h2, h4, nodeDeleted], ?_⟩
    intro p hp
    cases l2 with
    | nil => rw [hb] at hp; simp at hp
    | cons c l3 =>
      rw [hb] at hp
      simp only [List.head?_cons, Option.map_some', Option.some.injEq] at hp
      subst hp
      obtain ⟨c1, c2, _, _⟩ := hc c (by simp)
      simp [isDeleted, c1, c2, nodeDeleted]
  · rcases insertLoop_spec s h hn cells v fuel 0 inv hfuel with
      ⟨_, h1⟩ | ⟨_, s2, _, _, _, _, h1, _⟩
    · exact ⟨_, h1, insertLoop_mono fuel fuel v (le_refl _) 1 fuel s _ hpos h1⟩
    · exact ⟨_, h1, insertLoop_mono fuel fuel v (le_refl _) 1 fuel s _ hpos h1⟩
  · rcases deleteLoop_spec s h hn cells v fuel 0 inv hfuel with
      ⟨_, h1⟩ | ⟨_, s2, _, _, _, _, h1, _⟩
    · exact ⟨_, h1, deleteLoop_mono fuel fuel v (le_refl _) 1 fuel s _ hpos h1⟩
    · exact ⟨_, h1, deleteLoop_mono fuel fuel v (le_refl _) 1 fuel s _ hpos h1⟩

/-- C17 at the sample state and the value 4. -/
theorem C17_witness :
    Reachable sample ∧ sample.mem.length ≤ 4 ∧
    (∃ a b, findPositions 4 sample 4 = some (a, b) ∧ loadNext sample.mem a = some b ∧
      isDeleted sample.mem a = some false ∧
      (∀ p, b = some p → isDeleted sample.mem p = some false)) ∧
    (∃ r, insertLoop 4 4 1 sample = some r ∧ Insert 4 sample 4 = some r) ∧
    (∃ r, deleteLoop 4 4 1 sample = some r ∧ Delete 4 sample 4 = some r) ∧
    insertLoop 4 4 0 sample = none ∧ deleteLoop 4 4 0 sample = none :=
  ⟨sample_reachable, by decide, C17_single_pass sample sample_reachable 4 4 (by decide)⟩

/-- C18: a Delete that returns true in a reachable state removes a node `b`
with predecessor `a`; afterwards `b` is the old `b` with its flag set, `a` is the
old `a` with the successor of `b` as its successor, every other node, the head
pointer and the number of nodes are as before, the counter went down by one in
32 bit arithmetic, and the chain behind `b` is still the same chain. -/
theorem C18_delete_frame (s : IntList) (hs : Reachable s) (v : Int) (fuel : Nat)
    (hf : s.mem.length ≤ fuel) (s2 : IntList) (hdel : Delete fuel s v = some (true, s2)) :
    ∃ (a b : Nat) (na nb : Node) (post : List Cell), a ≠ b ∧ s.mem[a]? = some na ∧
      s.mem[b]? = some nb ∧ na.next = some b ∧ nb.value = v ∧
      s2.mem[b]? = some { nb with marked := nodeDeleted } ∧
      s2.mem[a]? = some { na with next := nb.next } ∧
      (∀ p, p ≠ a → p ≠ b → s2.mem[p]? = s.mem[p]?) ∧
      s2.mem.length = s.mem.length ∧ s2.head = s.head ∧
      s2.len = wrapInt32 (s.len + (-1)) ∧
      IsSeg s.mem nb.next post none ∧ IsSeg s2.mem nb.next post none := by
  obtain ⟨h, hn, cells, inv⟩ := reachable_inv s hs
  have hfuel := inv_fuel s h hn cells fuel inv hf
  cases fuel with
  | zero => simp at hfuel
  | succ k =>
    rcases deleteLoop_spec s h hn cells v (k + 1) k inv hfuel with
      ⟨_, h1⟩ | ⟨_, s3, hn3, cells3, l1, l2, h1, inv3, _, _, _, _, hlen, hmem,
        a, b, na, nb, post, hab, ha, hb, hnext, hval, hmem2, hpost, _, hframe⟩
    · have := hdel.symm.trans h1
      simp at this
    · have heq := hdel.symm.trans h1
      simp only [Option.some.injEq, Prod.mk.injEq, true_and] at heq
      subst heq
      have hlta : a < s.mem.length := (List.getElem?_eq_some_iff.1 ha).1
      have hltb : b < s.mem.length := (List.getElem?_eq_some_iff.1 hb).1
      refine ⟨a, b, na, nb, post, hab, ha, hb, hnext, hval, ?_, ?_, ?_, hmem, ?_, hlen, hpost, ?_⟩
      · rw [hmem2, List.getElem?_set_ne hab]
        simp [hltb]
      · rw [hmem2]
        simp [hlta]
      · intro p hpa hpb
        rw [hmem2]
        exact frame_delete s.mem a b _ _ p hpa hpb
      · rw [inv3.head_eq, inv.head_eq]
      · refine IsSeg_frame s.mem _ post _ _ (fun c hc => ?_) hpost
        rw [hmem2]
        exact frame_delete s.mem a b _ _ c.1 (hframe c hc).1 (hframe c hc).2

/-- C18 at Delete(3) on the sample state. -/
theorem C18_witness :
    Reachable sample ∧ sample.mem.length ≤ 4 ∧ Delete 4 sample 3 = some (true, afterDelete) ∧
    ∃ (a b : Nat) (na nb : Node) (post : List Cell), a ≠ b ∧ sample.mem[a]? = some na ∧
      sample.mem[b]? = some nb ∧ na.next = some b ∧ nb.value = 3 ∧
      afterDelete.mem[b]? = some { nb with marked := nodeDeleted } ∧
      afterDelete.mem[a]? = some { na with next := nb.next } ∧
      (∀ p, p ≠ a → p ≠ b → afterDelete.mem[p]? = sample.mem[p]?) ∧
      afterDelete.mem.length = sample.mem.length ∧ afterDelete.head = sample.head ∧
      afterDelete.len = wrapInt32 (sample.len + (-1)) ∧
      IsSeg sample.mem nb.next post none ∧ IsSeg afterDelete.mem nb.next post none :=
  ⟨sample_reachable, by decide, by decide,
    C18_delete_frame sample sample_reachable 3 4 (by decide) afterDelete (by decide)⟩

/-! ## The round trip, and a flagged node that is still linked -/
theorem wrapInt32_idem (x : Int) : wrapInt32 (wrapInt32 x) = wrapInt32 x := by
  unfold wrapInt32; omega
/-- C19: in every reachable state, for a value not contained, Insert and then
Delete of that value both return true and leave Range output, every Contains
answer and Len as they were before the two calls. -/
theorem C19_insert_delete_round_trip (s : IntList) (hs : Reachable s) (v : Int) (fuel : Nat)
    (hf : s.mem.length < fuel) (hc : Contains fuel s v = some false) :
    ∃ s2 s3, Insert fuel s v = some (true, s2) ∧ Delete fuel s2 v = some (true, s3) ∧
      (∃ out, rangeAll fuel s = some out ∧ rangeAll fuel s3 = some out) ∧
      (∀ w, ∃ c, Contains fuel s w = some c ∧ Contains fuel s3 w = some c) ∧
      Len s3 = Len s := by
  obtain ⟨h, hn, cells, inv⟩ := reachable_inv s hs
  have hfuel := inv_fuel s h hn cells fuel inv (le_of_lt hf)
  rw [contains_spec s h hn cells fuel inv hfuel] at hc
  rcases insert_spec s h hn cells v fuel inv hfuel with
    ⟨hin, _⟩ | ⟨_, s2, hn2, cells2, l1, l2, h1, inv2, e1, e2, p1, p2, hlen, hmem⟩
  · simp [hin] at hc
  · have hfuel2 : cells2.length < fuel := inv_fuel s2 h hn2 cells2 fuel inv2 (by omega)
    rcases delete_spec s2 h hn2 cells2 v fuel inv2 hfuel2 with
      ⟨hout, _⟩ | ⟨_, s3, hn3, cells3, l3, l4, h2, inv3, e3, e4, p3, p4, hlen3, hmem3⟩
    · have hin2 : v ∈ vals cells2 := by rw [e2]; simp
      exact absurd hin2 hout
    · have hfuel3 : cells3.length < fuel := inv_fuel s3 h hn3 cells3 fuel inv3 (by omega)
      have hnot1 : v ∉ l1 := fun hx => by have := p1 v hx; omega
      have hnot3 : v ∉ l3 := fun hx => by have := p3 v hx; omega
      have hvals : vals cells3 = vals cells := by
        have a1 : (l1 ++ v :: l2).erase v = l1 ++ l2 := by
          rw [List.erase_append_right _ hnot1, List.erase_cons_head]
        have a3 : (l3 ++ v :: l4).erase v = l3 ++ l4 := by
          rw [List.erase_append_right _ hnot3, List.erase_cons_head]
        rw [e4, ← a3, ← e3, e2, a1, e1]
      refine ⟨s2, s3, h1, h2, ⟨vals cells, rangeAll_spec s h hn cells fuel inv hfuel, ?_⟩,
        fun w => ⟨_, contains_spec s h hn cells fuel inv hfuel w, ?_⟩, ?_⟩
      · rw [rangeAll_spec s3 h hn3 cells3 fuel inv3 hfuel3, hvals]
      · rw [contains_spec s3 h hn3 cells3 fuel inv3 hfuel3, hvals]
      · show s3.len = s.len
        rw [hlen3, hlen, wrapInt32_add, inv.len_eq]
        have hz : wrapInt32 (cells.length : Int) + 1 + (-1) = wrapInt32 (cells.length : Int) :=
          by ring
        rw [hz]
        exact wrapInt32_idem _

/-- C19 at the sample state and the value 4. -/
theorem C19_witness :
    Reachable sample ∧ sample.mem.length < 5 ∧ Contains 5 sample 4 = some false ∧
    ∃ s2 s3, Insert 5 sample 4 = some (true, s2) ∧ Delete 5 s2 4 = some (true, s3) ∧
      (∃ out, rangeAll 5 sample = some out ∧ rangeAll 5 s3 = some out) ∧
      (∀ w, ∃ c, Contains 5 sample w = some c ∧ Contains 5 s3 w = some c) ∧
      Len s3 = Len sample :=
  ⟨sample_reachable, by decide, by decide,
    C19_insert_delete_round_trip sample sample_reachable 4 5 (by decide) (by decide)⟩

/-- C11 (fails): the state `midDelete` is the sample state after the steps of
Delete(3) up to the store of the flag, and the remaining steps finish that call;
in it the node holding 3 is flagged and still linked from the head, Range passes
3 to an always-true visitor all the same, while Contains(3) answers false. -/
theorem C11_range_reports_flagged_node :
    ((lock sample.mem 2).bind fun m1 => (lock m1 0).bind fun m2 => setDeleted m2 2) =
      some midDelete.mem ∧
    (((storeNext midDelete.mem 0 (some 1)).bind fun m4 => (unlock m4 0).bind fun m5 =>
      unlock m5 2) = (Delete 4 sample 3).map fun r => r.2.mem) ∧
    midDelete.mem[2]? = some { value := 3, marked := nodeDeleted, next := some 1, mu := true } ∧
    isDeleted midDelete.mem 2 = some true ∧
    Linked midDelete.mem 0 2 ∧
    rangeAll 4 midDelete = some [3, 5, 8] ∧
    Contains 4 midDelete 3 = some false := by
  refine ⟨by decide, by decide, by decide, by decide, ?_, by decide, by decide⟩
  exact Linked.step (Linked.refl 0) (by decide)

/-- C15 (fails): in the state `midDelete`, whose chain 3, 5, 8 is sorted and
whose node holding 3 is flagged and still linked, no node with value 3 and clear
flag exists and Contains(3) answers false, yet Insert(3) returns false at once
and changes nothing, without a retry. -/
theorem C15_insert_false_on_flagged_node :
    rangeAll 4 midDelete = some [3, 5, 8] ∧
    isDeleted midDelete.mem 2 = some true ∧
    (∀ n ∈ midDelete.mem, n.value = 3 → n.marked = nodeDeleted) ∧
    Contains 4 midDelete 3 = some false ∧
    Insert 4 midDelete 3 = some (false, midDelete) ∧
    insertLoop 4 3 1 midDelete = some (false, midDelete) := by
  refine ⟨by decide, by decide, by decide, by decide, by decide, by decide⟩

end Clist
